import Mathlib

/-!
Verification development for the silverbullet-meeting-notes plug.

The repository's core is a pair of pure functions plus a thin orchestrator:

* `sanitizeTitle` (utils.ts): a chain of regex rewrites normalizing a raw
  title into a filename-safe display form;
* `preprocessDateStr` / `parseDateWithFormats` (utils.ts): an abbreviated
  date-token resolver built on dayjs with the `customParseFormat` plugin in
  strict mode;
* `meetingNote` (meetingNote.ts): the command gluing configuration reading,
  prompting, parsing and page writing together (it carries its own private
  variants of the sanitizer and the resolver).

This file gives a shallow embedding of those functions and proves or refutes
the specification claims about them.

Modelling conventions:

* Naive local calendar timestamps are a record of year / month (0-based, as
  in JS `Date` and dayjs) / day (1-based) / hour / minute / second.  dayjs
  compares instants by their epoch-millisecond value; for naive local time
  this order coincides with the linearisation `toSec` below, so
  `a.isBefore(b)` is modelled as `toSec a < toSec b`.
* `dayjs(str, fmt, true)` (strict) accepts exactly the strings that the
  format re-renders identically, i.e. fully padded two-digit fields with the
  literal separators, with in-range hour/minute and with a day-of-month that
  exists in the *current wall-clock* month (the parse defaults the month and
  year from `new Date()`).  The wall-clock date is passed explicitly as the
  `today` argument.
* dayjs mutators used by the code: `.year()` / `.month()` setters clamp the
  day-of-month to the target month's length; `.date()` uses JS `setDate`
  roll-over; `.add(1, 'month')` / `.subtract(1, 'month')` clamp;
  `.add(1, 'day')` moves to the next calendar day.
-/

/-! ## Characters -/

/-- Character class of the JS regex `\s` (ECMAScript WhiteSpace and
LineTerminator productions). -/
def jsWs (c : Char) : Bool :=
  c.toNat = 32 || c.toNat = 9 || c.toNat = 10 || c.toNat = 11 || c.toNat = 12 ||
  c.toNat = 13 || c.toNat = 0xa0 || c.toNat = 0x1680 ||
  (0x2000 ≤ c.toNat && c.toNat ≤ 0x200a) ||
  c.toNat = 0x2028 || c.toNat = 0x2029 || c.toNat = 0x202f ||
  c.toNat = 0x205f || c.toNat = 0x3000 || c.toNat = 0xfeff

/-- Character class of the JS regex `[a-zA-Z0-9]`. -/
def isAlnum (c : Char) : Bool :=
  (97 ≤ c.toNat && c.toNat ≤ 122) || (65 ≤ c.toNat && c.toNat ≤ 90) ||
  (48 ≤ c.toNat && c.toNat ≤ 57)

/-- Character class of the JS regex `[0-9]` (`\d`). -/
def isDig (c : Char) : Bool := 48 ≤ c.toNat && c.toNat ≤ 57

/-- Numeric value of the two-digit string `ab`. -/
def d2 (a b : Char) : Nat := 10 * (a.toNat - 48) + (b.toNat - 48)

/-! ## Calendar arithmetic -/

/-- Gregorian leap-year rule (as implemented by JS `Date`). -/
def isLeap (y : Nat) : Bool := (y % 4 = 0 && y % 100 ≠ 0) || y % 400 = 0

/-- Length of month `m` (0-based) in year `y`. -/
def daysInMonth (y m : Nat) : Nat :=
  match m with
  | 0 => 31
  | 1 => if isLeap y then 29 else 28
  | 2 => 31
  | 3 => 30
  | 4 => 31
  | 5 => 30
  | 6 => 31
  | 7 => 31
  | 8 => 30
  | 9 => 31
  | 10 => 30
  | _ => 31

/-- Days in the year `y`. -/
def daysInYear (y : Nat) : Nat := if isLeap y then 366 else 365

/-- Days elapsed before year `y` counting from year 0 (the closed form of
the sum of `daysInYear` over `0..y-1`; `daysBeforeYear_succ` below recovers
the recurrence). -/
def daysBeforeYear (y : Nat) : Nat :=
  365 * y + (y + 3) / 4 - (y + 99) / 100 + (y + 399) / 400

set_option maxHeartbeats 1000000 in
theorem daysBeforeYear_succ (y : Nat) :
    daysBeforeYear (y + 1) = daysBeforeYear y + daysInYear y := by
  have hL : (isLeap y = true) ↔ ((y % 4 = 0 ∧ y % 100 ≠ 0) ∨ y % 400 = 0) := by
    simp [isLeap]
  unfold daysBeforeYear daysInYear
  by_cases h : isLeap y = true
  · rw [if_pos h]
    rw [hL] at h
    omega
  · rw [if_neg h]
    rw [hL] at h
    omega

/-- Days elapsed in year `y` before the first of month `m` (0-based). -/
def daysBeforeMonth (y : Nat) : Nat → Nat
  | 0 => 0
  | m + 1 => daysBeforeMonth y m + daysInMonth y m

/-- A naive local calendar timestamp: month is 0-based (as in JS), day is
1-based. -/
structure DT where
  year : Nat
  month : Nat
  day : Nat
  hour : Nat
  minute : Nat
  second : Nat
deriving DecidableEq, Repr

/-- Well-formedness of a timestamp: all fields in calendar range. -/
def WF (t : DT) : Prop :=
  t.month < 12 ∧ 1 ≤ t.day ∧ t.day ≤ daysInMonth t.year t.month ∧
  t.hour < 24 ∧ t.minute < 60 ∧ t.second < 60

instance (t : DT) : Decidable (WF t) := by unfold WF; infer_instance

/-- Day index of the timestamp's date on the linear day scale. -/
def toDays (t : DT) : Nat :=
  daysBeforeYear t.year + daysBeforeMonth t.year t.month + (t.day - 1)

/-- Linearisation of a timestamp to seconds; models the epoch-millisecond
order dayjs uses for `isBefore` (naive local time, no zone shifts). -/
def toSec (t : DT) : Nat :=
  toDays t * 86400 + t.hour * 3600 + t.minute * 60 + t.second

/-- Model of dayjs `.add(1, 'day')`: the next calendar day, same time. -/
def addDay (t : DT) : DT :=
  if t.day < daysInMonth t.year t.month then
    ⟨t.year, t.month, t.day + 1, t.hour, t.minute, t.second⟩
  else if t.month < 11 then
    ⟨t.year, t.month + 1, 1, t.hour, t.minute, t.second⟩
  else
    ⟨t.year + 1, 0, 1, t.hour, t.minute, t.second⟩

/-- Day clamped into month `m` of year `y` (dayjs caps the day at
`daysInMonth` when setting month or year). -/
def clampDay (y m d : Nat) : Nat := min d (daysInMonth y m)

/-- Model of the dayjs `.year(y)` setter (clamps the day). -/
def setYearC (t : DT) (y : Nat) : DT :=
  ⟨y, t.month, clampDay y t.month t.day, t.hour, t.minute, t.second⟩

/-- Model of the dayjs `.month(m)` setter (clamps the day); only ever called
with `m < 12` by the embedded code. -/
def setMonthC (t : DT) (m : Nat) : DT :=
  ⟨t.year, m, clampDay t.year m t.day, t.hour, t.minute, t.second⟩

/-- Model of the dayjs `.date(n)` setter, i.e. JS `setDate`: a value above
the month's length rolls over into the following month.  The embedded code
only calls it with `1 ≤ n ≤ 31`, so at most one roll-over can happen. -/
def setDateR (t : DT) (n : Nat) : DT :=
  if n ≤ daysInMonth t.year t.month then
    ⟨t.year, t.month, n, t.hour, t.minute, t.second⟩
  else if t.month < 11 then
    ⟨t.year, t.month + 1, n - daysInMonth t.year t.month, t.hour, t.minute, t.second⟩
  else
    ⟨t.year + 1, 0, n - daysInMonth t.year t.month, t.hour, t.minute, t.second⟩

/-- Model of dayjs `.add(1, 'month')` (clamps the day). -/
def addMonthC (t : DT) : DT :=
  if t.month = 11 then
    ⟨t.year + 1, 0, clampDay (t.year + 1) 0 t.day, t.hour, t.minute, t.second⟩
  else
    ⟨t.year, t.month + 1, clampDay t.year (t.month + 1) t.day, t.hour, t.minute, t.second⟩

/-- Model of dayjs `.subtract(1, 'month')` (clamps the day). -/
def subMonthC (t : DT) : DT :=
  if t.month = 0 then
    ⟨t.year - 1, 11, clampDay (t.year - 1) 11 t.day, t.hour, t.minute, t.second⟩
  else
    ⟨t.year, t.month - 1, clampDay t.year (t.month - 1) t.day, t.hour, t.minute, t.second⟩

/-! ## `preprocessDateStr` (utils.ts) -/

/-- JS `String.prototype.split` with a single-character separator. -/
def splitOnChar (sep : Char) : List Char → List (List Char)
  | [] => [[]]
  | c :: rest =>
    if c = sep then [] :: splitOnChar sep rest
    else
      match splitOnChar sep rest with
      | h :: t => (c :: h) :: t
      | [] => [[c]]

/-- JS `String.prototype.split(/[-:]/)`. -/
def splitTime : List Char → List (List Char)
  | [] => [[]]
  | c :: rest =>
    if c = '-' ∨ c = ':' then [] :: splitTime rest
    else
      match splitTime rest with
      | h :: t => (c :: h) :: t
      | [] => [[c]]

/-- JS `padStart(2, "0")`. -/
def pad2 (l : List Char) : List Char :=
  if l.length = 0 then ['0', '0'] else if l.length = 1 then '0' :: l else l

/-- JS `Array.prototype.join` with a one-character separator. -/
def joinSep (sep : Char) : List (List Char) → List Char
  | [] => []
  | [x] => x
  | x :: xs => x ++ sep :: joinSep sep xs

/-- Core of `preprocessDateStr` on character lists. -/
def preprocessL (cs : List Char) : List Char :=
  let hasDay := cs.contains '_'
  let parts := splitOnChar '_' cs
  let dayPart : List Char := if hasDay then pad2 (parts.headD []) ++ ['_'] else []
  let timePart : List Char := if hasDay then (parts.drop 1).headD [] else cs
  if timePart = [] then []
  else
    let delim : Char :=
      if timePart.contains ':' then ':' else if timePart.contains '-' then '-' else ':'
    dayPart ++ joinSep delim ((splitTime timePart).map pad2)

/-- `preprocessDateStr` from utils.ts. -/
def preprocessDateStr (s : String) : String := String.mk (preprocessL s.data)

/-! ## `parseDateWithFormats` (utils.ts) -/

/-- The six entries of the `formats` array, in order. -/
inductive Fmt
  | dayDashFmt
  | dayColonFmt
  | dayHourFmt
  | colonFmt
  | dashFmt
  | hourFmt
deriving DecidableEq, Repr

/-- Whether the format contains a `DD` day component. -/
def fmtHasDD : Fmt → Bool
  | .dayDashFmt => true
  | .dayColonFmt => true
  | .dayHourFmt => true
  | _ => false

/-- The `formats` array: `DD_HH-mm`, `DD_HH:mm`, `DD_HH`, `HH:mm`, `HH-mm`,
`HH`. -/
def fmtList : List Fmt :=
  [.dayDashFmt, .dayColonFmt, .dayHourFmt, .colonFmt, .dashFmt, .hourFmt]

/-- Model of `dayjs(str, format, true)`: strict parsing accepts exactly the
fully-padded rendering of in-range fields.  The parse defaults month and
year from the wall clock (`today`), which is why a day-bearing token is only
valid when its day exists in the wall-clock month; for a time-only format
the resulting object carries the wall-clock date. -/
def matchFmt (today : DT) : Fmt → List Char → Option DT
  | .dayDashFmt, [a, b, '_', c, d, '-', e, f] =>
    if isDig a && isDig b && isDig c && isDig d && isDig e && isDig f &&
        1 ≤ d2 a b && d2 a b ≤ daysInMonth today.year today.month &&
        d2 c d ≤ 23 && d2 e f ≤ 59 then
      some ⟨today.year, today.month, d2 a b, d2 c d, d2 e f, 0⟩
    else none
  | .dayColonFmt, [a, b, '_', c, d, ':', e, f] =>
    if isDig a && isDig b && isDig c && isDig d && isDig e && isDig f &&
        1 ≤ d2 a b && d2 a b ≤ daysInMonth today.year today.month &&
        d2 c d ≤ 23 && d2 e f ≤ 59 then
      some ⟨today.year, today.month, d2 a b, d2 c d, d2 e f, 0⟩
    else none
  | .dayHourFmt, [a, b, '_', c, d] =>
    if isDig a && isDig b && isDig c && isDig d &&
        1 ≤ d2 a b && d2 a b ≤ daysInMonth today.year today.month &&
        d2 c d ≤ 23 then
      some ⟨today.year, today.month, d2 a b, d2 c d, 0, 0⟩
    else none
  | .colonFmt, [c, d, ':', e, f] =>
    if isDig c && isDig d && isDig e && isDig f && d2 c d ≤ 23 && d2 e f ≤ 59 then
      some ⟨today.year, today.month, today.day, d2 c d, d2 e f, 0⟩
    else none
  | .dashFmt, [c, d, '-', e, f] =>
    if isDig c && isDig d && isDig e && isDig f && d2 c d ≤ 23 && d2 e f ≤ 59 then
      some ⟨today.year, today.month, today.day, d2 c d, d2 e f, 0⟩
    else none
  | .hourFmt, [c, d] =>
    if isDig c && isDig d && d2 c d ≤ 23 then
      some ⟨today.year, today.month, today.day, d2 c d, 0, 0⟩
    else none
  | _, _ => none

/-- The per-format disambiguation of `parseDateWithFormats` (utils.ts):
day-bearing formats are transplanted onto `now`'s year and month and pushed
by one month if in the past; time-only formats take `now`'s date and roll to
the next day when more than 30 minutes stale. -/
def resolveFmt (now : DT) (f : Fmt) (d : DT) : DT :=
  if fmtHasDD f then
    let c := setDateR (setMonthC (setYearC d now.year) now.month) d.day
    if toSec c < toSec now then
      if c.month ≠ now.month then subMonthC c else addMonthC c
    else c
  else
    let c : DT := ⟨now.year, now.month, now.day, d.hour, d.minute, 0⟩
    if toSec c + 1800 < toSec now then addDay c else c

/-- First-match-wins iteration over the format list. -/
def tryFmts (now today : DT) : List Fmt → List Char → Option DT
  | [], _ => none
  | f :: rest, cs =>
    match matchFmt today f cs with
    | some d => some (resolveFmt now f d)
    | none => tryFmts now today rest cs

/-- `parseDateWithFormats` from utils.ts.  `now` is the reference instant
passed by the caller; `today` is the wall-clock instant that
`dayjs(str, fmt, true)` uses for its parse defaults. -/
def parseDateWithFormats (dateStr : String) (now today : DT) : Option DT :=
  let p := preprocessL dateStr.data
  if p = [] then none else tryFmts now today fmtList p

/-! ## `sanitizeTitle` (utils.ts)

The sanitizer is the chain of JS regex rewrites

0. `^\s*(fw|fwd|re)\s*:\s*` (case-insensitive, anchored) removed,
1. `[^a-zA-Z0-9\s]` to `-`,
2. `^[\s-]+|[\s-]+$` removed,
3. `\s+` to a space,
4. `-{2,}` to `" - "`,
5. `([a-zA-Z0-9])-[^a-zA-Z0-9]` to `"$1 - "`,
6. `[^a-zA-Z0-9]-([a-zA-Z0-9])` to `" - $1"`,
7. `( - )+(- )+` to `" - "`,
8. `\s+` to a space.

Each global replace is modelled as the standard left-to-right scan: at each
position attempt the match; on success emit the replacement and continue
after the matched text, otherwise emit one character and advance. -/

/-- Dropping a matched run never lengthens a list (termination helper). -/
theorem dropWhile_len_le (p : Char → Bool) (l : List Char) :
    (l.dropWhile p).length ≤ l.length :=
  (List.dropWhile_sublist p).length_le

/-- ASCII lower-casing of the letters the `\i` flag has to fold here. -/
def lowAscii (c : Char) : Char :=
  if 65 ≤ c.toNat ∧ c.toNat ≤ 90 then Char.ofNat (c.toNat + 32) else c

/-- Case-insensitive literal match; on success returns the rest of the
input. -/
def matchCI : List Char → List Char → Option (List Char)
  | [], cs => some cs
  | _ :: _, [] => none
  | p :: ps, c :: cs => if lowAscii c = p then matchCI ps cs else none

/-- The `\s*:\s*` tail of the forward-prefix regex. -/
def afterColon (cs : List Char) : Option (List Char) :=
  match cs.dropWhile jsWs with
  | ':' :: rest => some (rest.dropWhile jsWs)
  | _ => none

/-- Step 0: strip one leading `fw:` / `fwd:` / `re:` (case-insensitive,
with optional surrounding whitespace); on no match the string is returned
unchanged.  The regex alternation tries `fw`, then `fwd`, then `re`. -/
def stripFwd (cs : List Char) : List Char :=
  let t := cs.dropWhile jsWs
  match (matchCI ['f', 'w'] t).bind afterColon with
  | some r => r
  | none =>
    match (matchCI ['f', 'w', 'd'] t).bind afterColon with
    | some r => r
    | none =>
      match (matchCI ['r', 'e'] t).bind afterColon with
      | some r => r
      | none => cs

/-- Step 1: every character outside `[a-zA-Z0-9\s]` becomes a hyphen. -/
def replSpecial (cs : List Char) : List Char :=
  cs.map fun c => if isAlnum c || jsWs c then c else '-'

/-- Character class of the JS regex `[\s-]`. -/
def isWsDash (c : Char) : Bool := jsWs c || c = '-'

/-- Step 2: strip leading and trailing `[\s-]+` runs. -/
def trimWsDash (cs : List Char) : List Char :=
  ((cs.dropWhile isWsDash).reverse.dropWhile isWsDash).reverse

/-- Steps 3 and 8: collapse every whitespace run to one space. -/
def collapseWs : List Char → List Char
  | [] => []
  | c :: rest =>
    match jsWs c with
    | true => ' ' :: collapseWs (rest.dropWhile jsWs)
    | false => c :: collapseWs rest
termination_by cs => cs.length
decreasing_by
  · have := dropWhile_len_le jsWs rest
    simp only [List.length_cons]; omega
  · simp

/-- Step 4: every run of two or more hyphens becomes `" - "`. -/
def hyRuns : List Char → List Char
  | '-' :: '-' :: rest => ' ' :: '-' :: ' ' :: hyRuns (rest.dropWhile fun c => c = '-')
  | c :: rest => c :: hyRuns rest
  | [] => []
termination_by cs => cs.length
decreasing_by
  · have := dropWhile_len_le (fun c => c = '-') rest
    simp only [List.length_cons]; omega
  · simp

/-- Step 5: `([a-zA-Z0-9])-[^a-zA-Z0-9]` to `"$1 - "` (the matched
non-alphanumeric character is consumed by the match and dropped). -/
def hyAfterWord : List Char → List Char
  | a :: '-' :: b :: rest =>
    match isAlnum a, isAlnum b with
    | true, false => a :: ' ' :: '-' :: ' ' :: hyAfterWord rest
    | _, _ => a :: hyAfterWord ('-' :: b :: rest)
  | c :: rest => c :: hyAfterWord rest
  | [] => []
termination_by cs => cs.length
decreasing_by all_goals simp_arith

/-- Step 6: `[^a-zA-Z0-9]-([a-zA-Z0-9])` to `" - $1"`. -/
def hyBeforeWord : List Char → List Char
  | a :: '-' :: b :: rest =>
    match isAlnum a, isAlnum b with
    | false, true => ' ' :: '-' :: ' ' :: b :: hyBeforeWord rest
    | _, _ => a :: hyBeforeWord ('-' :: b :: rest)
  | c :: rest => c :: hyBeforeWord rest
  | [] => []
termination_by cs => cs.length
decreasing_by all_goals simp_arith

/-- Number of leading repetitions of `" - "`. -/
def repsSpDashSp : List Char → Nat
  | a :: b :: c :: rest =>
    match a = ' ' && b = '-' && c = ' ' with
    | true => repsSpDashSp rest + 1
    | false => 0
  | _ => 0

/-- Number of leading repetitions of `"- "`. -/
def repsDashSp : List Char → Nat
  | a :: b :: rest =>
    match a = '-' && b = ' ' with
    | true => repsDashSp rest + 1
    | false => 0
  | _ => 0

/-- Backtracking loop of `( - )+(- )+`: try `k` repetitions of `" - "`
(from the greedy maximum downwards), each time matching `(- )+` greedily on
the remainder. -/
def try7 (cs : List Char) : Nat → Option Nat
  | 0 => none
  | k + 1 =>
    let j := repsDashSp (cs.drop (3 * (k + 1)))
    if 0 < j then some (3 * (k + 1) + 2 * j) else try7 cs k

/-- Length of the text matched by `( - )+(- )+` at the head of `cs`, if
any. -/
def sepMatch (cs : List Char) : Option Nat := try7 cs (repsSpDashSp cs)

/-- Step 7: `( - )+(- )+` to `" - "`. -/
def collapseSeps : List Char → List Char
  | [] => []
  | c :: rest =>
    match sepMatch (c :: rest) with
    | some n => ' ' :: '-' :: ' ' :: collapseSeps (rest.drop (n - 1))
    | none => c :: collapseSeps rest
termination_by cs => cs.length
decreasing_by
  · have : (rest.drop (n - 1)).length ≤ rest.length := by
      rw [List.length_drop]; omega
    simp only [List.length_cons]; omega
  · simp

/-- Steps 1–8 of the sanitizer (everything after the forward-prefix
strip). -/
def restPipeline (cs : List Char) : List Char :=
  collapseWs (collapseSeps (hyBeforeWord (hyAfterWord
    (hyRuns (collapseWs (trimWsDash (replSpecial cs)))))))

/-- `sanitizeTitle` from utils.ts. -/
def sanitizeTitle (s : String) : String :=
  String.mk (restPipeline (stripFwd s.data))

/-! ## `meetingNote.ts`: private sanitizer and resolver variants -/

/-- Step of meetingNote.ts's sanitizer: collapse `-+` runs to one hyphen. -/
def hyRunsOne : List Char → List Char
  | '-' :: rest => '-' :: hyRunsOne (rest.dropWhile fun c => c = '-')
  | c :: rest => c :: hyRunsOne rest
  | [] => []
termination_by cs => cs.length
decreasing_by
  · have := dropWhile_len_le (fun c => c = '-') rest
    simp only [List.length_cons]; omega
  · simp

/-- Step of meetingNote.ts's sanitizer: `(?<! )-(?! )` to `" - "`.  The
lookarounds are zero-width, and matching always inspects the original
string, so the scan carries the original previous character. -/
def hySpaceLook (prev : Option Char) : List Char → List Char
  | [] => []
  | c :: rest =>
    match c = '-' && !(prev = some ' ') && !(rest.head? = some ' ') with
    | true => ' ' :: '-' :: ' ' :: hySpaceLook (some '-') rest
    | false => c :: hySpaceLook (some c) rest

/-- `sanitizeTitle` as defined privately in meetingNote.ts (no forward
prefix stripping; different hyphen spacing rule). -/
def mnSanitizeTitle (s : String) : String :=
  String.mk (collapseWs (hySpaceLook none (trimWsDash (hyRunsOne (replSpecial s.data)))))

/-- `parseDateWithFormats` as defined privately in meetingNote.ts: `now`
is the wall clock (`dayjs()`), so the strict-parse defaults and the
reference instant coincide; a stale time rolls one day forward, then a date
before today (at day granularity) rolls one month forward. -/
def mnResolveFmt (now : DT) (d : DT) : DT :=
  let d1 := if toSec d + 1800 < toSec now then addDay d else d
  if (¬ (d1.year = now.year ∧ d1.month = now.month ∧ d1.day = now.day)) ∧
      toDays d1 < toDays now then
    addMonthC d1
  else d1

/-- Format iteration of meetingNote.ts's resolver. -/
def mnTryFmts (now : DT) : List Fmt → List Char → Option DT
  | [], _ => none
  | f :: rest, cs =>
    match matchFmt now f cs with
    | some d => some (mnResolveFmt now d)
    | none => mnTryFmts now rest cs

/-- meetingNote.ts's `parseDateWithFormats` (the caller has already run
`preprocessDateStr`). -/
def mnParseDateWithFormats (cs : List Char) (now : DT) : Option DT :=
  mnTryFmts now fmtList cs

/-! ## `meetingNote.ts`: orchestrator -/

/-- Two-digit zero-padded decimal rendering. -/
def padNum2 (n : Nat) : String :=
  if n < 10 then "0" ++ toString n else toString n

/-- Four-digit zero-padded decimal rendering. -/
def padNum4 (n : Nat) : String :=
  if n < 10 then "000" ++ toString n
  else if n < 100 then "00" ++ toString n
  else if n < 1000 then "0" ++ toString n
  else toString n

/-- `formatTimestamp`: dayjs format `YYYY-MM-DD_HH-mm` (dayjs `MM` is the
1-based month). -/
def formatTimestamp (t : DT) : String :=
  padNum4 t.year ++ "-" ++ padNum2 (t.month + 1) ++ "-" ++ padNum2 t.day ++
    "_" ++ padNum2 t.hour ++ "-" ++ padNum2 t.minute

/-- The plug configuration schema: both fields optional strings. -/
structure MeetingNoteConfig where
  meetingNoteTemplatePath : Option String
  meetingNoteBasePath : Option String
deriving DecidableEq, Repr

/-- What `readSetting(PLUG_NAME)` can produce for `getPlugConfig`: nothing,
a schema-valid object, or a value rejected by the zod schema. -/
inductive RawSetting
  | absent
  | invalid
  | valid (c : MeetingNoteConfig)
deriving DecidableEq, Repr

/-- Observable side effects of one command invocation. -/
inductive Eff
  | notify (msg : String) (kind : String)
  | write (path content : String)
deriving DecidableEq, Repr

/-- The note store exposed by the `space` syscalls. -/
structure Store where
  pages : List (String × String)
deriving DecidableEq, Repr

/-- `space.getPageMeta`-based lookup. -/
def getPageMeta (st : Store) (p : String) : Option String :=
  (st.pages.find? fun q => q.1 = p).map Prod.snd

/-- `noteExists` from meetingNote.ts. -/
def noteExists (st : Store) (p : String) : Bool :=
  (getPageMeta st p).isSome

/-- `space.writePage`. -/
def writePage (st : Store) (p c : String) : Store :=
  ⟨(p, c) :: st.pages⟩

/-- The flash message of `showConfigErrorNotification` (detail elided). -/
def configErrorMsg : String :=
  "There was an error with your meetingNote configuration. Check your SETTINGS file"

/-- `showConfigErrorNotification`: latched on the module-level
`configErrorShown` flag; returns the new flag and the effects. -/
def showConfigErrorNotification (configErrorShown : Bool) : Bool × List Eff :=
  if configErrorShown then (true, [])
  else (true, [.notify configErrorMsg "error"])

/-- `getPlugConfig`: zod-parse the raw setting, notifying (once per
process) and falling back to the empty config on schema failure. -/
def getPlugConfig (raw : RawSetting) (configErrorShown : Bool) :
    MeetingNoteConfig × Bool × List Eff :=
  match raw with
  | .valid c => (c, configErrorShown, [])
  | .absent => (⟨none, none⟩, configErrorShown, [])
  | .invalid =>
    let r := showConfigErrorNotification configErrorShown
    (⟨none, none⟩, r.1, r.2)

/-- JS `String.prototype.trim` (drops `\s` from both ends). -/
def trimJs (cs : List Char) : List Char :=
  ((cs.dropWhile jsWs).reverse.dropWhile jsWs).reverse

/-- The external inputs of one `meetingNote` invocation: the raw setting,
the template read result (`none` = read failure), the prompt result
(`none` = cancelled) and the wall-clock instant. -/
structure Invocation where
  raw : RawSetting
  templateContent : Option String
  promptResult : Option String
  now : DT
deriving DecidableEq, Repr

/-- The `meetingNote` command from meetingNote.ts, as a function from the
invocation inputs, the `configErrorShown` process flag and the store to the
new flag, the new store and the emitted effects. -/
def meetingNote (inv : Invocation) (configErrorShown : Bool) (st : Store) :
    Bool × Store × List Eff :=
  let g := getPlugConfig inv.raw configErrorShown
  let config := g.1
  let shown1 := g.2.1
  let effs0 := g.2.2
  match config.meetingNoteTemplatePath, config.meetingNoteBasePath with
  | some _tp, some bp =>
    (match inv.templateContent with
     | none => (shown1, st, effs0 ++ [.notify "Failed to read template content" "error"])
     | some templateContent =>
       match inv.promptResult with
       | none => (shown1, st, effs0)
       | some userInput =>
         let trimmedUserInput := trimJs userInput.data
         match trimmedUserInput.findIdx? fun c => c = ' ' with
         | none =>
           (shown1, st, effs0 ++ [.notify "Please enter both a date and a title." "error"])
         | some firstSpaceIndex =>
           let dateStr0 := trimJs (trimmedUserInput.take firstSpaceIndex)
           let title := trimJs (trimmedUserInput.drop (firstSpaceIndex + 1))
           let dateStr := preprocessL dateStr0
           match mnParseDateWithFormats dateStr inv.now with
           | none => (shown1, st, effs0 ++ [.notify "Could not parse date." "error"])
           | some parsedDate =>
             let timestamp := formatTimestamp parsedDate
             let sanitizedTitle := mnSanitizeTitle (String.mk title)
             let noteContent :=
               (templateContent.replace "\x7btitle\x7d" sanitizedTitle).replace
                 "\x7btimestamp\x7d" timestamp
             let noteTitle := timestamp ++ " - " ++ sanitizedTitle
             let notePath := bp ++ "/" ++ noteTitle
             if noteExists st notePath then
               (shown1, st, effs0 ++ [.notify "Note already exists!" "error"])
             else
               (shown1, writePage st notePath noteContent,
                 effs0 ++ [.notify "Note created successfully!" "info"]))
  | _, _ =>
    (shown1, st,
      effs0 ++ [.notify "Please enter both a meetingNoteTemplatePath and meetingNoteBasePath." "error"])

/-- A whole process lifetime: a sequence of invocations threaded through
the `configErrorShown` flag and the store, collecting all effects. -/
def runSeq : List Invocation → Bool → Store → Bool × Store × List Eff
  | [], shown, st => (shown, st, [])
  | inv :: rest, shown, st =>
    let r := meetingNote inv shown st
    let r2 := runSeq rest r.1 r.2.1
    (r2.1, r2.2.1, r.2.2 ++ r2.2.2)

/-! ## Shape predicates for the sanitizer output -/

/-- Some pair of adjacent characters satisfies `p`. -/
def hasPair (p : Char → Char → Bool) : List Char → Bool
  | a :: b :: rest => p a b || hasPair p (b :: rest)
  | _ => false

/-- Some triple of adjacent characters satisfies `p`. -/
def hasTri (p : Char → Char → Char → Bool) : List Char → Bool
  | a :: b :: c :: rest => p a b c || hasTri p (b :: c :: rest)
  | _ => false

/-- Two adjacent whitespace characters. -/
def wwP (a b : Char) : Bool := jsWs a && jsWs b

/-- Two adjacent hyphens. -/
def hhP (a b : Char) : Bool := a = '-' && b = '-'

/-- A hyphen with an alphanumeric on the left and a non-alphanumeric on the
right — the pattern rewritten by sanitizer step 5. -/
def b5P (a b c : Char) : Bool := b = '-' && isAlnum a && !isAlnum c

/-- A hyphen with a non-alphanumeric on the left and an alphanumeric on the
right — the pattern rewritten by sanitizer step 6. -/
def b6P (a b c : Char) : Bool := b = '-' && !isAlnum a && isAlnum c

/-- An occurrence of `" - - "`: two spaced hyphens sharing the middle
space (the smallest text matched by sanitizer step 7). -/
def has5 : List Char → Bool
  | a :: b :: c :: d :: e :: rest =>
    (a = ' ' && b = '-' && c = ' ' && d = '-' && e = ' ') ||
      has5 (b :: c :: d :: e :: rest)
  | _ => false

/-- Characters allowed in a normalized title. -/
def goodChar (c : Char) : Bool := isAlnum c || c = ' ' || c = '-'

/-- All characters allowed. -/
def allGood (cs : List Char) : Bool := cs.all goodChar

/-- Empty or starting with an alphanumeric character. -/
def headAl : List Char → Bool
  | [] => true
  | c :: _ => isAlnum c

/-- Empty or ending with an alphanumeric character. -/
def endsAl : List Char → Bool
  | [] => true
  | [c] => isAlnum c
  | _ :: rest => endsAl rest

/-- The shape invariant of sanitizer outputs: the allowed character set, an
alphanumeric at each end, no doubled whitespace, no doubled hyphen, and
every hyphen either between two alphanumerics or between two
non-alphanumerics (which, with the other clauses, means between single
spaces). -/
def Normalized (cs : List Char) : Prop :=
  allGood cs = true ∧ headAl cs = true ∧ endsAl cs = true ∧
  hasPair wwP cs = false ∧ hasPair hhP cs = false ∧
  hasTri b5P cs = false ∧ hasTri b6P cs = false

instance (cs : List Char) : Decidable (Normalized cs) := by
  unfold Normalized; infer_instance

/-! ### Generic facts about the shape predicates -/

theorem hasPair_tail {p : Char → Char → Bool} {a : Char} {cs : List Char}
    (h : hasPair p (a :: cs) = false) : hasPair p cs = false := by
  cases cs <;> simp_all [hasPair]

theorem hasTri_tail {p : Char → Char → Char → Bool} {a : Char} {cs : List Char}
    (h : hasTri p (a :: cs) = false) : hasTri p cs = false := by
  rcases cs with _ | ⟨b, _ | ⟨c, rest⟩⟩ <;> simp_all [hasTri]

theorem has5_tail {a : Char} {cs : List Char}
    (h : has5 (a :: cs) = false) : has5 cs = false := by
  rcases cs with _ | ⟨b, _ | ⟨c, _ | ⟨d, _ | ⟨e, rest⟩⟩⟩⟩ <;> simp_all [has5]

theorem hasPair_dropWhile {p : Char → Char → Bool} {q : Char → Bool}
    {cs : List Char} (h : hasPair p cs = false) :
    hasPair p (cs.dropWhile q) = false := by
  induction cs with
  | nil => simpa using h
  | cons c rest ih =>
    rw [List.dropWhile_cons]
    split
    · exact ih (hasPair_tail h)
    · exact h

theorem hasTri_dropWhile {p : Char → Char → Char → Bool} {q : Char → Bool}
    {cs : List Char} (h : hasTri p cs = false) :
    hasTri p (cs.dropWhile q) = false := by
  induction cs with
  | nil => simpa using h
  | cons c rest ih =>
    rw [List.dropWhile_cons]
    split
    · exact ih (hasTri_tail h)
    · exact h

theorem hasPair_drop {p : Char → Char → Bool} {cs : List Char}
    (h : hasPair p cs = false) (n : Nat) : hasPair p (cs.drop n) = false := by
  induction cs generalizing n with
  | nil => simpa using h
  | cons c rest ih =>
    cases n with
    | zero => exact h
    | succ n => exact ih (hasPair_tail h) n

theorem hasTri_drop {p : Char → Char → Char → Bool} {cs : List Char}
    (h : hasTri p cs = false) (n : Nat) : hasTri p (cs.drop n) = false := by
  induction cs generalizing n with
  | nil => simpa using h
  | cons c rest ih =>
    cases n with
    | zero => exact h
    | succ n => exact ih (hasTri_tail h) n

theorem allGood_dropWhile {q : Char → Bool} {cs : List Char}
    (h : allGood cs = true) : allGood (cs.dropWhile q) = true := by
  induction cs with
  | nil => simpa using h
  | cons c rest ih =>
    rw [List.dropWhile_cons]
    split
    · exact ih (by simp_all [allGood])
    · exact h

theorem allGood_drop {cs : List Char} (h : allGood cs = true) (n : Nat) :
    allGood (cs.drop n) = true := by
  induction cs generalizing n with
  | nil => simpa using h
  | cons c rest ih =>
    cases n with
    | zero => exact h
    | succ n => exact ih (by simp_all [allGood]) n

/-! ### Facts about `endsAl` -/

theorem endsAl_cons₂ (a b : Char) (cs : List Char) :
    endsAl (a :: b :: cs) = endsAl (b :: cs) := rfl

theorem endsAl_cons_of_ne {a : Char} {cs : List Char} (h : cs ≠ []) :
    endsAl (a :: cs) = endsAl cs := by
  cases cs with
  | nil => exact absurd rfl h
  | cons b rest => rfl

theorem endsAl_tail {a : Char} {cs : List Char} (h : endsAl (a :: cs) = true)
    (hne : cs ≠ []) : endsAl cs = true := by
  rwa [endsAl_cons_of_ne hne] at h

theorem endsAl_append_single (l : List Char) (c : Char) :
    endsAl (l ++ [c]) = isAlnum c := by
  induction l with
  | nil => rfl
  | cons a rest ih =>
    cases rest with
    | nil => simpa using ih
    | cons b r2 => simpa [endsAl_cons₂] using ih

theorem endsAl_drop {cs : List Char} (h : endsAl cs = true) (n : Nat) :
    endsAl (cs.drop n) = true := by
  induction cs generalizing n with
  | nil => simpa using h
  | cons c rest ih =>
    cases n with
    | zero => exact h
    | succ n =>
      cases rest with
      | nil => simp [endsAl]
      | cons b r2 => exact ih (endsAl_tail h (by simp)) n

theorem endsAl_dropWhile {q : Char → Bool} {cs : List Char}
    (h : endsAl cs = true) : endsAl (cs.dropWhile q) = true := by
  induction cs with
  | nil => simpa using h
  | cons c rest ih =>
    rw [List.dropWhile_cons]
    split
    · cases rest with
      | nil => simp [endsAl]
      | cons b r2 => exact ih (endsAl_tail h (by simp))
    · exact h

theorem dropWhile_ne_nil_of_endsAl {q : Char → Bool} {cs : List Char}
    (hq : ∀ c, q c = true → isAlnum c = false) (h : endsAl cs = true)
    (hne : cs ≠ []) : cs.dropWhile q ≠ [] := by
  induction cs with
  | nil => exact absurd rfl hne
  | cons c rest ih =>
    rw [List.dropWhile_cons]
    split
    · rename_i hc
      cases rest with
      | nil =>
        have : isAlnum c = true := by simpa [endsAl] using h
        rw [hq c hc] at this
        exact absurd this (by simp)
      | cons b r2 => exact ih (endsAl_tail h (by simp)) (by simp)
    · simp

/-! ### Character class facts -/

theorem alnum_not_ws {c : Char} (h : isAlnum c = true) : jsWs c = false := by
  simp only [isAlnum, Bool.or_eq_true, Bool.and_eq_true, decide_eq_true_eq] at h
  simp only [jsWs, Bool.or_eq_false_iff, Bool.and_eq_false_iff,
    decide_eq_false_iff_not, Bool.not_eq_true', Nat.not_le]
  omega

theorem alnum_not_dash {c : Char} (h : isAlnum c = true) : c ≠ '-' := by
  rintro rfl
  exact absurd h (by decide)

theorem alnum_not_sp {c : Char} (h : isAlnum c = true) : c ≠ ' ' := by
  rintro rfl
  exact absurd h (by decide)

theorem ws_not_alnum {c : Char} (h : jsWs c = true) : isAlnum c = false := by
  cases ha : isAlnum c with
  | false => rfl
  | true => rw [alnum_not_ws ha] at h; exact absurd h (by simp)

theorem alnum_not_wsDash {c : Char} (h : isAlnum c = true) : isWsDash c = false := by
  simp [isWsDash, alnum_not_ws h, alnum_not_dash h]

theorem isAlnum_sp : isAlnum ' ' = false := by decide

theorem isAlnum_dash : isAlnum '-' = false := by decide

/-- Character class of the intermediate stage right after step 1. -/
def stage1Char (c : Char) : Bool := isAlnum c || jsWs c || c = '-'

theorem goodChar_of_stage1_not_ws {c : Char} (h : stage1Char c = true)
    (hw : jsWs c = false) : goodChar c = true := by
  simp only [stage1Char, Bool.or_eq_true, decide_eq_true_eq] at h
  rcases h with (h | h) | h
  · simp [goodChar, h]
  · rw [hw] at h; exact absurd h (by simp)
  · simp [goodChar, h]

theorem stage1_alnum_of_not_wsDash {c : Char} (h : stage1Char c = true)
    (hw : isWsDash c = false) : isAlnum c = true := by
  simp only [stage1Char, Bool.or_eq_true, decide_eq_true_eq] at h
  simp only [isWsDash, Bool.or_eq_false_iff, decide_eq_false_iff_not] at hw
  rcases h with (h | h) | h
  · exact h
  · rw [hw.1] at h; exact absurd h (by simp)
  · exact absurd h hw.2

theorem goodChar_alnum_of_not_spDash {c : Char} (h : goodChar c = true)
    (hs : c ≠ ' ') (hd : c ≠ '-') : isAlnum c = true := by
  simp only [goodChar, Bool.or_eq_true, decide_eq_true_eq] at h
  tauto

/-! ### Stage lemmas: step 1 (`replSpecial`) -/

theorem all_of_sublist {p : Char → Bool} {l' l : List Char}
    (hs : List.Sublist l' l) (h : l.all p = true) : l'.all p = true := by
  apply List.all_eq_true.2
  intro c hc
  exact List.all_eq_true.1 h c (hs.subset hc)

theorem replSpecial_stage1 (cs : List Char) :
    (replSpecial cs).all stage1Char = true := by
  simp only [replSpecial, List.all_map, List.all_eq_true, Function.comp]
  intro c _
  by_cases h1 : isAlnum c = true
  · simp [h1, stage1Char]
  · by_cases h2 : jsWs c = true
    · simp [h1, h2, stage1Char]
    · simp [h1, h2, stage1Char]

/-! ### Stage lemmas: step 2 (`trimWsDash`) -/

theorem trimWsDash_sublist (cs : List Char) : List.Sublist (trimWsDash cs) cs := by
  unfold trimWsDash
  have h1 : List.Sublist (cs.dropWhile isWsDash) cs := List.dropWhile_sublist _
  have h2 : List.Sublist ((cs.dropWhile isWsDash).reverse.dropWhile isWsDash)
      (cs.dropWhile isWsDash).reverse := List.dropWhile_sublist _
  have h3 := h2.reverse
  rw [List.reverse_reverse] at h3
  exact h3.trans h1

theorem endsAl_of_getLast {cs : List Char} {c : Char}
    (h : cs.getLast? = some c) (ha : isAlnum c = true) : endsAl cs = true := by
  rcases List.getLast?_eq_some_iff.1 h with ⟨l', rfl⟩
  rw [endsAl_append_single]
  exact ha

theorem getLast_of_endsAl {cs : List Char} (h : endsAl cs = true)
    (hne : cs ≠ []) : ∃ c, cs.getLast? = some c ∧ isAlnum c = true := by
  induction cs with
  | nil => exact absurd rfl hne
  | cons a rest ih =>
    cases rest with
    | nil =>
      refine ⟨a, by simp, ?_⟩
      simpa [endsAl] using h
    | cons b r2 =>
      rcases ih (endsAl_tail h (by simp)) (by simp) with ⟨c, hc, ha⟩
      exact ⟨c, by rw [List.getLast?_cons_cons]; exact hc, ha⟩

theorem headAl_of_head {cs : List Char} {c : Char} (h : cs.head? = some c)
    (ha : isAlnum c = true) : headAl cs = true := by
  cases cs with
  | nil => simp at h
  | cons x xs =>
    simp only [List.head?_cons, Option.some.injEq] at h
    subst h
    simpa [headAl] using ha

theorem trimWsDash_ends {cs : List Char} (hall : cs.all stage1Char = true) :
    headAl (trimWsDash cs) = true ∧ endsAl (trimWsDash cs) = true := by
  have hvsub : List.Sublist (cs.dropWhile isWsDash) cs := List.dropWhile_sublist _
  have htw : trimWsDash cs = ((cs.dropWhile isWsDash).reverse.dropWhile isWsDash).reverse := rfl
  cases hwe : (cs.dropWhile isWsDash).reverse.dropWhile isWsDash with
  | nil => rw [htw, hwe]; exact ⟨rfl, rfl⟩
  | cons x xs =>
    have hwsub : List.Sublist (x :: xs) (cs.dropWhile isWsDash).reverse := by
      rw [← hwe]; exact List.dropWhile_sublist _
    -- the inner dropWhile's head is the final output's last character
    have hxw : isWsDash x = false := by
      have := List.head?_dropWhile_not isWsDash (cs.dropWhile isWsDash).reverse
      rw [hwe] at this
      simpa using this
    have hxmem : x ∈ cs := by
      have : x ∈ (cs.dropWhile isWsDash).reverse := hwsub.subset (by simp)
      exact hvsub.subset (List.mem_reverse.1 this)
    have hxal : isAlnum x = true :=
      stage1_alnum_of_not_wsDash (List.all_eq_true.1 hall x hxmem) hxw
    -- the head of `v` is the final output's first character
    rcases List.dropWhile_suffix (l := (cs.dropWhile isWsDash).reverse) isWsDash with ⟨pre, hpre⟩
    rw [hwe] at hpre
    have hvne : cs.dropWhile isWsDash ≠ [] := by
      intro hv
      rw [hv] at hpre
      simpa using congrArg List.length hpre
    cases hve : cs.dropWhile isWsDash with
    | nil => exact absurd hve hvne
    | cons y ys =>
      have hyw : isWsDash y = false := by
        have := List.head?_dropWhile_not isWsDash cs
        rw [hve] at this
        simpa using this
      have hymem : y ∈ cs := hvsub.subset (by rw [hve]; simp)
      have hyal : isAlnum y = true :=
        stage1_alnum_of_not_wsDash (List.all_eq_true.1 hall y hymem) hyw
      constructor
      · -- first character: `y`
        apply headAl_of_head (c := y) _ hyal
        rw [htw, hwe, List.head?_reverse]
        have : pre ++ x :: xs = (y :: ys).reverse := by rw [← hve, hpre]
        have h2 : (pre ++ x :: xs).getLast? = (y :: ys).reverse.getLast? := by rw [this]
        rw [List.getLast?_append, List.getLast?_reverse] at h2
        cases h3 : (x :: xs).getLast? with
        | none => simp [List.getLast?_eq_none_iff] at h3
        | some z =>
          rw [h3] at h2
          simpa using h2
      · -- last character: `x`
        apply endsAl_of_getLast (c := x) _ hxal
        rw [htw, hwe, List.getLast?_reverse]
        simp

/-! ### Cons-expansion helpers for the shape predicates -/

theorem hasPair_cons_eq (p : Char → Char → Bool) (a : Char) (l : List Char) :
    hasPair p (a :: l) =
      ((match l with | b :: _ => p a b | _ => false) || hasPair p l) := by
  rcases l with _ | ⟨b, t⟩ <;> simp [hasPair]

theorem hasTri_cons_eq (p : Char → Char → Char → Bool) (a : Char) (l : List Char) :
    hasTri p (a :: l) =
      ((match l with | b :: c :: _ => p a b c | _ => false) || hasTri p l) := by
  rcases l with _ | ⟨b, _ | ⟨c, t⟩⟩ <;> simp [hasTri]

theorem hasPair_cons_of {p : Char → Char → Bool} {a : Char} {l : List Char}
    (h1 : ∀ b, p a b = false) (h2 : hasPair p l = false) :
    hasPair p (a :: l) = false := by
  rw [hasPair_cons_eq, h2]
  rcases l with _ | ⟨b, t⟩ <;> simp [h1]

theorem hasTri_cons_of {p : Char → Char → Char → Bool} {a : Char} {l : List Char}
    (h1 : ∀ b c, p a b c = false) (h2 : hasTri p l = false) :
    hasTri p (a :: l) = false := by
  rw [hasTri_cons_eq, h2]
  rcases l with _ | ⟨b, _ | ⟨c, t⟩⟩ <;> simp [h1]

theorem hasTri_cons_mono {p : Char → Char → Char → Bool} {a : Char} {l : List Char}
    (h : hasTri p l = true) : hasTri p (a :: l) = true := by
  rw [hasTri_cons_eq, h]
  simp

/-! ### Stage lemmas: `collapseWs` (steps 3 and 8) -/

theorem collapseWs_nil : collapseWs [] = [] := by rw [collapseWs]

theorem collapseWs_cons_ws {c : Char} (rest : List Char) (h : jsWs c = true) :
    collapseWs (c :: rest) = ' ' :: collapseWs (rest.dropWhile jsWs) := by
  rw [collapseWs, h]

theorem collapseWs_cons_not {c : Char} (rest : List Char) (h : jsWs c = false) :
    collapseWs (c :: rest) = c :: collapseWs rest := by
  rw [collapseWs, h]

theorem collapseWs_eq_nil {cs : List Char} : collapseWs cs = [] ↔ cs = [] := by
  cases cs with
  | nil => simp [collapseWs_nil]
  | cons c rest =>
    cases h : jsWs c with
    | true => simp [collapseWs_cons_ws rest h]
    | false => simp [collapseWs_cons_not rest h]

theorem collapseWs_head (cs : List Char) :
    (collapseWs cs).head? = cs.head?.map fun c => if jsWs c then ' ' else c := by
  cases cs with
  | cons c rest =>
    cases h : jsWs c with
    | true => simp [collapseWs_cons_ws rest h, h]
    | false => simp [collapseWs_cons_not rest h, h]
  | nil => simp [collapseWs_nil]

theorem collapseWs_allGood {cs : List Char} (h : cs.all stage1Char = true) :
    allGood (collapseWs cs) = true := by
  induction cs using collapseWs.induct with
  | case1 => simp [collapseWs_nil, allGood]
  | case2 c rest hc ih =>
    rw [collapseWs_cons_ws rest hc]
    have h2 : (rest.dropWhile jsWs).all stage1Char = true :=
      all_of_sublist (List.dropWhile_sublist _) (by simp_all [List.all_cons])
    have := ih h2
    simp_all [allGood, goodChar]
  | case3 c rest hc ih =>
    rw [collapseWs_cons_not rest hc]
    have h2 : rest.all stage1Char = true := by simp_all [List.all_cons]
    have hg : goodChar c = true :=
      goodChar_of_stage1_not_ws (by simp_all [List.all_cons]) hc
    have := ih h2
    simp_all [allGood]

theorem collapseWs_noWW (cs : List Char) :
    hasPair wwP (collapseWs cs) = false := by
  induction cs using collapseWs.induct with
  | case1 => simp [collapseWs_nil, hasPair]
  | case2 c rest hc ih =>
    rw [collapseWs_cons_ws rest hc]
    cases hre : rest.dropWhile jsWs with
    | nil =>
      rw [hre] at ih
      rw [collapseWs_nil] at ih ⊢
      simp [hasPair]
    | cons r rs =>
      have hr : jsWs r = false := by
        have := List.head?_dropWhile_not jsWs rest
        rw [hre] at this
        simpa using this
      rw [hre] at ih
      rw [collapseWs_cons_not rs hr] at ih ⊢
      rw [hasPair_cons_eq]
      simp [wwP, hr, ih]
  | case3 c rest hc ih =>
    rw [collapseWs_cons_not rest hc]
    exact hasPair_cons_of (fun b => by simp [wwP, hc]) ih

theorem collapseWs_noHH {cs : List Char} (h : hasPair hhP cs = false) :
    hasPair hhP (collapseWs cs) = false := by
  induction cs using collapseWs.induct with
  | case1 => simp [collapseWs_nil, hasPair]
  | case2 c rest hc ih =>
    rw [collapseWs_cons_ws rest hc]
    refine hasPair_cons_of (fun b => by simp [hhP]) (ih ?_)
    exact hasPair_dropWhile (hasPair_tail h)
  | case3 c rest hc ih =>
    rw [collapseWs_cons_not rest hc]
    have ih2 := ih (hasPair_tail h)
    rw [hasPair_cons_eq, ih2]
    cases hre : rest with
    | nil => simp [collapseWs_nil]
    | cons r rs =>
      cases hr : jsWs r with
      | true =>
        rw [collapseWs_cons_ws rs hr]
        simp [hhP]
      | false =>
        rw [collapseWs_cons_not rs hr]
        have hp : hhP c r = false := by
          have := h
          rw [hre, hasPair_cons_eq] at this
          simp only [Bool.or_eq_false_iff] at this
          exact this.1
        simp [hp]

theorem collapseWs_headAl {cs : List Char} (h : headAl cs = true) :
    headAl (collapseWs cs) = true := by
  cases cs with
  | nil => simp [collapseWs_nil, headAl]
  | cons c rest =>
    have hal : isAlnum c = true := by simpa [headAl] using h
    rw [collapseWs_cons_not rest (alnum_not_ws hal)]
    simpa [headAl] using hal

theorem collapseWs_endsAl {cs : List Char} (h : endsAl cs = true) :
    endsAl (collapseWs cs) = true := by
  induction cs using collapseWs.induct with
  | case1 => simp [collapseWs_nil, endsAl]
  | case2 c rest hc ih =>
    rw [collapseWs_cons_ws rest hc]
    have hrne : rest ≠ [] := by
      rintro rfl
      have : isAlnum c = true := by simpa [endsAl] using h
      rw [ws_not_alnum hc] at this
      exact absurd this (by simp)
    have hre : endsAl rest = true := endsAl_tail h hrne
    have hd : rest.dropWhile jsWs ≠ [] :=
      dropWhile_ne_nil_of_endsAl (fun c hc => ws_not_alnum hc) hre hrne
    have hone : collapseWs (rest.dropWhile jsWs) ≠ [] := by
      simpa [collapseWs_eq_nil] using hd
    rw [endsAl_cons_of_ne hone]
    exact ih (endsAl_dropWhile hre)
  | case3 c rest hc ih =>
    rw [collapseWs_cons_not rest hc]
    cases rest with
    | nil =>
      rw [collapseWs_nil]
      exact h
    | cons r rs =>
      have hone : collapseWs (r :: rs) ≠ [] := by simp [collapseWs_eq_nil]
      rw [endsAl_cons_of_ne hone]
      exact ih (endsAl_tail h (by simp))

theorem hasTri_b6_of_dropWhile {rest tail : List Char} {b : Char} :
    ∀ {c : Char}, jsWs c = true → rest.dropWhile jsWs = '-' :: b :: tail →
    isAlnum b = true → hasTri b6P (c :: rest) = true := by
  induction rest with
  | nil => intro c _ hre _; simp at hre
  | cons r rs ih =>
    intro c hc hre hb
    rw [List.dropWhile_cons] at hre
    by_cases hr : jsWs r = true
    · rw [if_pos (by simp [hr])] at hre
      exact hasTri_cons_mono (ih hr hre hb)
    · rw [if_neg (by simpa using hr)] at hre
      obtain ⟨rfl, rfl⟩ : r = '-' ∧ rs = b :: tail := by
        simpa using hre
      rw [hasTri_cons_eq]
      have : b6P c '-' b = true := by
        simp [b6P, ws_not_alnum hc, hb]
      simp [this]

theorem collapseWs_noB5 {cs : List Char} (h : hasTri b5P cs = false) :
    hasTri b5P (collapseWs cs) = false := by
  induction cs using collapseWs.induct with
  | case1 => simp [collapseWs_nil, hasTri]
  | case2 c rest hc ih =>
    rw [collapseWs_cons_ws rest hc]
    have hsp : isAlnum ' ' = false := by decide
    exact hasTri_cons_of (fun b d => by simp [b5P, hsp])
      (ih (hasTri_dropWhile (hasTri_tail h)))
  | case3 c rest hc ih =>
    rw [collapseWs_cons_not rest hc]
    have ih2 := ih (hasTri_tail h)
    rw [hasTri_cons_eq, ih2]
    rw [Bool.or_false]
    cases hrest : rest with
    | nil => simp [collapseWs_nil]
    | cons r rs =>
      by_cases hr : jsWs r = true
      · rw [collapseWs_cons_ws rs hr]
        cases collapseWs (rs.dropWhile jsWs) with
        | nil => simp
        | cons d ds => simp [b5P]
      · replace hr : jsWs r = false := by simpa using hr
        rw [collapseWs_cons_not rs hr]
        by_cases hrd : r = '-'
        · subst hrd
          cases hrs : rs with
          | nil => simp [collapseWs_nil]
          | cons z zs =>
            have h3 : b5P c '-' z = false := by
              have := h
              rw [hrest, hrs, hasTri_cons_eq] at this
              simp only [Bool.or_eq_false_iff] at this
              exact this.1
            simp only [b5P, Bool.and_eq_false_iff] at h3
            rcases h3 with (h3 | h3) | h3
            · simp at h3
            · -- `c` is not alphanumeric, so no pattern can start with it
              cases hcol : collapseWs (z :: zs) with
              | nil => simp
              | cons d ds => simp [b5P, h3]
            · -- `z` is alphanumeric, hence not whitespace: it survives as is
              have hz : isAlnum z = true := by simpa using h3
              rw [collapseWs_cons_not zs (alnum_not_ws hz)]
              simp [b5P, hz]
        · cases hcol : collapseWs rs with
          | nil => simp
          | cons d ds => simp [b5P, hrd]

theorem collapseWs_noB6 {cs : List Char} (h : hasTri b6P cs = false) :
    hasTri b6P (collapseWs cs) = false := by
  induction cs using collapseWs.induct with
  | case1 => simp [collapseWs_nil, hasTri]
  | case2 c rest hc ih =>
    rw [collapseWs_cons_ws rest hc]
    have ih2 := ih (hasTri_dropWhile (hasTri_tail h))
    rw [hasTri_cons_eq, ih2, Bool.or_false]
    cases hre : rest.dropWhile jsWs with
    | nil => rw [collapseWs_nil]
    | cons r rs =>
      have hr : jsWs r = false := by
        have := List.head?_dropWhile_not jsWs rest
        rw [hre] at this
        simpa using this
      rw [collapseWs_cons_not rs hr]
      by_cases hrd : r = '-'
      · subst hrd
        cases hrs : rs with
        | nil => simp [collapseWs_nil]
        | cons z zs =>
          by_cases hz : isAlnum z = true
          · exfalso
            have hdw : rest.dropWhile jsWs = '-' :: z :: zs := by rw [hre, hrs]
            have htrue := hasTri_b6_of_dropWhile hc hdw hz
            rw [h] at htrue
            exact absurd htrue (by simp)
          · have hz2 : isAlnum z = false := by simpa using hz
            cases hzw : jsWs z with
            | true =>
              rw [collapseWs_cons_ws zs hzw]
              simp [b6P, isAlnum_sp]
            | false =>
              rw [collapseWs_cons_not zs hzw]
              simp [b6P, hz2]
      · cases hcol : collapseWs rs with
        | nil => simp
        | cons d ds => simp [b6P, hrd]
  | case3 c rest hc ih =>
    rw [collapseWs_cons_not rest hc]
    have ih2 := ih (hasTri_tail h)
    rw [hasTri_cons_eq, ih2, Bool.or_false]
    cases hrest : rest with
    | nil => simp [collapseWs_nil]
    | cons r rs =>
      by_cases hr : jsWs r = true
      · rw [collapseWs_cons_ws rs hr]
        cases collapseWs (rs.dropWhile jsWs) with
        | nil => simp
        | cons d ds => simp [b6P]
      · replace hr : jsWs r = false := by simpa using hr
        rw [collapseWs_cons_not rs hr]
        by_cases hrd : r = '-'
        · subst hrd
          cases hrs : rs with
          | nil => simp [collapseWs_nil]
          | cons z zs =>
            have h3 : b6P c '-' z = false := by
              have := h
              rw [hrest, hrs, hasTri_cons_eq] at this
              simp only [Bool.or_eq_false_iff] at this
              exact this.1
            simp only [b6P, Bool.and_eq_false_iff] at h3
            rcases h3 with (h3 | h3) | h3
            · simp at h3
            · -- `c` is alphanumeric: no bad pattern can start with it
              have hcal : isAlnum c = true := by simpa using h3
              cases hcol : collapseWs (z :: zs) with
              | nil => simp
              | cons d ds => simp [b6P, hcal]
            · -- `z` is not alphanumeric: its image is a space or itself
              cases hzw : jsWs z with
              | true =>
                rw [collapseWs_cons_ws zs hzw]
                simp [b6P, isAlnum_sp]
              | false =>
                rw [collapseWs_cons_not zs hzw]
                simp [b6P, h3]
        · cases hcol : collapseWs rs with
          | nil => simp
          | cons d ds => simp [b6P, hrd]

/-! ### Stage lemmas: step 4 (`hyRuns`) -/

theorem hyRuns_nil : hyRuns [] = [] := by rw [hyRuns]

theorem hyRuns_dd (rest : List Char) :
    hyRuns ('-' :: '-' :: rest) =
      ' ' :: '-' :: ' ' :: hyRuns (rest.dropWhile fun c => c = '-') := by
  rw [hyRuns]

theorem hyRuns_cons_nd {c : Char} (rest : List Char) (h : c ≠ '-') :
    hyRuns (c :: rest) = c :: hyRuns rest := by
  rcases rest with _ | ⟨d, rest2⟩ <;> rw [hyRuns] <;> simp [h]

theorem hyRuns_dash_one {rest : List Char} (h : rest.head? ≠ some '-') :
    hyRuns ('-' :: rest) = '-' :: hyRuns rest := by
  rcases rest with _ | ⟨d, rest2⟩
  · rw [hyRuns]
    simp
  · have hd : d ≠ '-' := by
      intro hdd
      exact h (by rw [hdd]; rfl)
    rw [hyRuns]
    simp [hd]

theorem hyRuns_eq_nil {cs : List Char} : hyRuns cs = [] ↔ cs = [] := by
  rcases cs with _ | ⟨c, _ | ⟨d, rest⟩⟩
  · simp [hyRuns_nil]
  · by_cases h : c = '-'
    · subst h
      rw [hyRuns_dash_one (by simp)]
      simp
    · rw [hyRuns_cons_nd _ h]
      simp
  · by_cases hc : c = '-'
    · subst hc
      by_cases hd : d = '-'
      · subst hd
        rw [hyRuns_dd]
        simp
      · rw [hyRuns_dash_one (by simp [hd])]
        simp
    · rw [hyRuns_cons_nd _ hc]
      simp

theorem hyRuns_head (cs : List Char) :
    (hyRuns cs).head? =
      (match cs with
       | '-' :: '-' :: _ => some ' '
       | c :: _ => some c
       | [] => none) := by
  rcases cs with _ | ⟨c, _ | ⟨d, rest⟩⟩
  · simp [hyRuns_nil]
  · by_cases h : c = '-'
    · subst h
      rw [hyRuns_dash_one (by simp)]
      rfl
    · rw [hyRuns_cons_nd _ h]
      split <;> simp_all
  · by_cases hc : c = '-'
    · subst hc
      by_cases hd : d = '-'
      · subst hd
        rw [hyRuns_dd]
        rfl
      · rw [hyRuns_dash_one (by simp [hd])]
        simp only [List.head?_cons]
        exact (by
          have : (match '-' :: d :: rest with
            | '-' :: '-' :: _ => some ' '
            | c :: _ => some c
            | [] => none) = some '-' := by
            simp [hd]
          rw [this])
    · rw [hyRuns_cons_nd _ hc]
      simp only [List.head?_cons]
      have : (match c :: d :: rest with
          | '-' :: '-' :: _ => some ' '
          | c :: _ => some c
          | [] => none) = some c := by
        simp [hc]
      rw [this]

theorem hyRuns_cons_eq {c : Char} {rest : List Char}
    (h : ∀ rs, c = '-' → rest = '-' :: rs → False) :
    hyRuns (c :: rest) = c :: hyRuns rest := by
  by_cases hc : c = '-'
  · subst hc
    have hne : rest.head? ≠ some '-' := by
      intro hh
      cases rest with
      | nil => simp at hh
      | cons r rs =>
        simp only [List.head?_cons, Option.some.injEq] at hh
        exact h rs rfl (by rw [hh])
    exact hyRuns_dash_one hne
  · exact hyRuns_cons_nd _ hc

theorem hyRuns_noHH (cs : List Char) : hasPair hhP (hyRuns cs) = false := by
  induction cs using hyRuns.induct with
  | case1 rest ih =>
    rw [hyRuns_dd]
    have h1 : hhP ' ' '-' = false := by decide
    have h2 : hhP '-' ' ' = false := by decide
    rw [hasPair_cons_eq]
    simp only [h1, Bool.false_or]
    rw [hasPair_cons_eq]
    simp only [h2, Bool.false_or]
    exact hasPair_cons_of (fun b => by simp [hhP]) ih
  | case2 c rest h ih =>
    rw [hyRuns_cons_eq h, hasPair_cons_eq, ih, Bool.or_false]
    by_cases hc : c = '-'
    · subst hc
      cases rest with
      | nil => rw [hyRuns_nil]
      | cons r rs =>
        have hr : r ≠ '-' := fun hh => h rs rfl (by rw [hh])
        cases hout : hyRuns (r :: rs) with
        | nil => rfl
        | cons b bs =>
          have hb : b = r := by
            have := hyRuns_head (r :: rs)
            rw [hout] at this
            simp only [List.head?_cons] at this
            have h2 : (match r :: rs with
                | '-' :: '-' :: _ => some ' '
                | c :: _ => some c
                | [] => none) = some r := by
              split <;> simp_all
            rw [h2] at this
            simpa using this
          subst hb
          simp [hhP, hr]
    · cases hout : hyRuns rest with
      | nil => rfl
      | cons b bs => simp [hhP, hc]
  | case3 => simp [hyRuns_nil, hasPair]

theorem hyRuns_allGood : ∀ {cs : List Char}, allGood cs = true →
    allGood (hyRuns cs) = true := by
  intro cs
  induction cs using hyRuns.induct with
  | case1 rest ih =>
    intro h
    rw [hyRuns_dd]
    have h2 : allGood rest = true := by simp_all [allGood]
    have := ih (allGood_dropWhile h2)
    simp_all [allGood, goodChar]
  | case2 c rest hs ih =>
    intro h
    rw [hyRuns_cons_eq hs]
    have h2 : allGood rest = true := by simp_all [allGood]
    have hg : goodChar c = true := by simp_all [allGood]
    have := ih h2
    simp_all [allGood]
  | case3 =>
    intro h
    simp [hyRuns_nil, allGood]

theorem hyRuns_headAl {cs : List Char} (h : headAl cs = true) :
    headAl (hyRuns cs) = true := by
  cases cs with
  | nil => simp [hyRuns_nil, headAl]
  | cons c rest =>
    have hal : isAlnum c = true := by simpa [headAl] using h
    rw [hyRuns_cons_nd _ (alnum_not_dash hal)]
    simpa [headAl] using hal

theorem hyRuns_endsAl : ∀ {cs : List Char}, endsAl cs = true →
    endsAl (hyRuns cs) = true := by
  intro cs
  induction cs using hyRuns.induct with
  | case1 rest ih =>
    intro h
    rw [hyRuns_dd]
    have hrne : rest ≠ [] := by
      rintro rfl
      have : isAlnum '-' = true := by simpa [endsAl] using h
      exact absurd this (by decide)
    have hre : endsAl rest = true := by
      have h1 : endsAl ('-' :: rest) = true := endsAl_tail h (by simp)
      exact endsAl_tail h1 hrne
    have hd : rest.dropWhile (fun c => c = '-') ≠ [] :=
      dropWhile_ne_nil_of_endsAl
        (fun c hc => by
          have : c = '-' := by simpa using hc
          subst this
          decide) hre hrne
    have hone : hyRuns (rest.dropWhile fun c => c = '-') ≠ [] := by
      simpa [hyRuns_eq_nil] using hd
    rw [endsAl_cons₂, endsAl_cons₂, endsAl_cons_of_ne hone]
    exact ih (endsAl_dropWhile hre)
  | case2 c rest hs ih =>
    intro h
    rw [hyRuns_cons_eq hs]
    cases rest with
    | nil =>
      rw [hyRuns_nil]
      exact h
    | cons r rs =>
      have hone : hyRuns (r :: rs) ≠ [] := by simp [hyRuns_eq_nil]
      rw [endsAl_cons_of_ne hone]
      exact ih (endsAl_tail h (by simp))
  | case3 =>
    intro h
    simp [hyRuns_nil, endsAl]

/-! ### Stage lemmas: step 5 (`hyAfterWord`) -/

theorem hasPair_head {p : Char → Char → Bool} {a b : Char} {t : List Char}
    (h : hasPair p (a :: b :: t) = false) : p a b = false := by
  simp only [hasPair, Bool.or_eq_false_iff] at h
  exact h.1

theorem hasTri_head {p : Char → Char → Char → Bool} {a b c : Char} {t : List Char}
    (h : hasTri p (a :: b :: c :: t) = false) : p a b c = false := by
  simp only [hasTri, Bool.or_eq_false_iff] at h
  exact h.1

theorem headAl_congr {xs ys : List Char} (h : ys.head? = xs.head?)
    (hx : headAl xs = true) : headAl ys = true := by
  cases ys with
  | nil => rfl
  | cons y t =>
    cases xs with
    | nil => simp at h
    | cons x s =>
      simp only [List.head?_cons, Option.some.injEq] at h
      subst h
      exact hx

theorem haw_nil : hyAfterWord [] = [] := by rw [hyAfterWord]

theorem haw_match {a b : Char} (rest : List Char) (ha : isAlnum a = true)
    (hb : isAlnum b = false) :
    hyAfterWord (a :: '-' :: b :: rest) =
      a :: ' ' :: '-' :: ' ' :: hyAfterWord rest := by
  rw [hyAfterWord, ha, hb]

theorem haw_nomatch {a b : Char} (rest : List Char)
    (hc : ¬(isAlnum a = true ∧ isAlnum b = false)) :
    hyAfterWord (a :: '-' :: b :: rest) =
      a :: hyAfterWord ('-' :: b :: rest) := by
  cases ha : isAlnum a <;> cases hb : isAlnum b <;> rw [hyAfterWord, ha, hb]
  exact absurd ⟨ha, hb⟩ hc

theorem haw_cons {c : Char} (rest : List Char)
    (h : ∀ b rs, rest = '-' :: b :: rs → False) :
    hyAfterWord (c :: rest) = c :: hyAfterWord rest := by
  rcases rest with _ | ⟨d, _ | ⟨b, rs⟩⟩
  · rw [hyAfterWord]
    simp
  · rw [hyAfterWord]
    simp
  · have hd : d ≠ '-' := fun hdd => h b rs (by rw [hdd])
    rw [hyAfterWord]
    simp [hd]

theorem haw_head (cs : List Char) : (hyAfterWord cs).head? = cs.head? := by
  rcases cs with _ | ⟨a, _ | ⟨d, _ | ⟨b, rest⟩⟩⟩
  · simp [haw_nil]
  · rw [haw_cons _ (by intro b rs h; simp at h)]
    simp
  · rw [haw_cons _ (by intro x rs h; simp at h)]
    simp
  · by_cases hd : d = '-'
    · subst hd
      by_cases hab : isAlnum a = true ∧ isAlnum b = false
      · rw [haw_match _ hab.1 hab.2]
        simp
      · rw [haw_nomatch _ hab]
        simp
    · rw [haw_cons _ (fun x rs h => by
        injection h with h1 h2
        exact hd h1)]
      simp

theorem haw_ne_nil {cs : List Char} (h : cs ≠ []) : hyAfterWord cs ≠ [] := by
  intro h0
  have := haw_head cs
  rw [h0] at this
  cases cs with
  | nil => exact h rfl
  | cons x xs => simp at this

theorem haw_noHH : ∀ {cs : List Char}, hasPair hhP cs = false →
    hasPair hhP (hyAfterWord cs) = false := by
  intro cs
  induction cs using hyAfterWord.induct with
  | case1 a b rest hb ha ih =>
    intro h
    rw [haw_match rest ha hb]
    have h4 := ih (hasPair_tail (hasPair_tail (hasPair_tail h)))
    have hx : hasPair hhP (' ' :: hyAfterWord rest) = false :=
      hasPair_cons_of (fun x => by simp [hhP]) h4
    simp only [hasPair, hx, Bool.or_false]
    simp [hhP, alnum_not_dash ha]
  | case2 a b rest hcond ih =>
    intro h
    rw [haw_nomatch rest (fun hh => hcond hh.1 hh.2)]
    have ih2 := ih (hasPair_tail h)
    rw [hasPair_cons_eq, ih2, Bool.or_false]
    have ha : a ≠ '-' := by
      have := hasPair_head h
      simp only [hhP] at this
      rcases Bool.and_eq_false_iff.1 this with h1 | h1
      · exact fun hh => by rw [hh] at h1; simp at h1
      · simp at h1
    cases hout : hyAfterWord ('-' :: b :: rest) with
    | nil => rfl
    | cons x xs => simp [hhP, ha]
  | case3 c rest hcc ih =>
    intro h
    rw [haw_cons rest hcc]
    have ih2 := ih (hasPair_tail h)
    rw [hasPair_cons_eq, ih2, Bool.or_false]
    cases rest with
    | nil => rw [haw_nil]
    | cons d rs =>
      cases hout : hyAfterWord (d :: rs) with
      | nil => rfl
      | cons x xs =>
        have hx : x = d := by
          have := haw_head (d :: rs)
          rw [hout] at this
          simpa using this
        subst hx
        simpa using hasPair_head h
  | case4 =>
    intro h
    simp [haw_nil, hasPair]

theorem haw_noB5 : ∀ {cs : List Char}, hasPair hhP cs = false →
    hasTri b5P (hyAfterWord cs) = false := by
  intro cs
  induction cs using hyAfterWord.induct with
  | case1 a b rest hb ha ih =>
    intro h
    rw [haw_match rest ha hb]
    have h4 := ih (hasPair_tail (hasPair_tail (hasPair_tail h)))
    have hx : hasTri b5P (' ' :: hyAfterWord rest) = false :=
      hasTri_cons_of (fun x y => by simp [b5P, isAlnum_sp]) h4
    have hy : hasTri b5P (' ' :: ' ' :: hyAfterWord rest) = false := by
      rw [hasTri_cons_eq]
      refine Bool.or_eq_false_iff.2 ⟨?_, hx⟩
      cases hyAfterWord rest with
      | nil => rfl
      | cons z zs => simp [b5P, isAlnum_sp]
    have hz : hasTri b5P ('-' :: ' ' :: hyAfterWord rest) = false := by
      rw [hasTri_cons_eq]
      refine Bool.or_eq_false_iff.2 ⟨?_, hx⟩
      cases hyAfterWord rest with
      | nil => rfl
      | cons z zs => simp [b5P, isAlnum_dash]
    rw [hasTri_cons_eq]
    refine Bool.or_eq_false_iff.2 ⟨by simp [b5P], ?_⟩
    rw [hasTri_cons_eq]
    exact Bool.or_eq_false_iff.2 ⟨by simp [b5P, isAlnum_sp], hz⟩
  | case2 a b rest hcond ih =>
    intro h
    rw [haw_nomatch rest (fun hh => hcond hh.1 hh.2)]
    have ih2 := ih (hasPair_tail h)
    rw [hasTri_cons_eq, ih2, Bool.or_false]
    have hbd : b ≠ '-' := by
      have := hasPair_head (hasPair_tail h)
      simp only [hhP] at this
      intro hh
      rw [hh] at this
      simp at this
    rw [haw_cons _ (fun x rs hx => by
      injection hx with h1 h2
      exact hbd h1)]
    cases hout : hyAfterWord (b :: rest) with
    | nil => rfl
    | cons x xs =>
      have hx : x = b := by
        have := haw_head (b :: rest)
        rw [hout] at this
        simpa using this
      have hb5 : b5P a '-' x = false := by
        rw [hx]
        simp only [b5P]
        by_cases hA : isAlnum a = true
        · have hB : isAlnum b = true := by
            cases hB2 : isAlnum b with
            | false => exact absurd (hcond hA hB2) (by simp)
            | true => rfl
          simp [hB]
        · simp [Bool.eq_false_iff.2 hA]
      simpa using hb5
  | case3 c rest hcc ih =>
    intro h
    rw [haw_cons rest hcc]
    have ih2 := ih (hasPair_tail h)
    rw [hasTri_cons_eq, ih2, Bool.or_false]
    cases hout : hyAfterWord rest with
    | nil => rfl
    | cons z zs =>
      cases zs with
      | nil => rfl
      | cons z2 zs2 =>
        by_cases hzd : z = '-'
        · exfalso
          subst hzd
          have hz : rest.head? = some '-' := by
            rw [← haw_head rest, hout]
            rfl
          cases hrest : rest with
          | nil =>
            rw [hrest] at hz
            simp at hz
          | cons r rl =>
            rw [hrest] at hz
            simp only [List.head?_cons, Option.some.injEq] at hz
            subst hz
            cases hrl : rl with
            | nil =>
              rw [hrest, hrl] at hout
              rw [haw_cons _ (by intro u v hu; simp at hu), haw_nil] at hout
              simp at hout
            | cons u ul => exact hcc u ul (by rw [hrest, hrl])
        · simp [b5P, hzd]
  | case4 =>
    intro h
    simp [haw_nil, hasTri]

theorem haw_allGood : ∀ {cs : List Char}, allGood cs = true →
    allGood (hyAfterWord cs) = true := by
  intro cs
  induction cs using hyAfterWord.induct with
  | case1 a b rest hb ha ih =>
    intro h
    rw [haw_match rest ha hb]
    have h2 : allGood rest = true := by simp_all [allGood]
    have := ih h2
    simp_all [allGood, goodChar]
  | case2 a b rest hcond ih =>
    intro h
    rw [haw_nomatch rest (fun hh => hcond hh.1 hh.2)]
    have h2 : allGood ('-' :: b :: rest) = true := by simp_all [allGood, goodChar]
    have := ih h2
    simp_all [allGood]
  | case3 c rest hcc ih =>
    intro h
    rw [haw_cons rest hcc]
    have h2 : allGood rest = true := by simp_all [allGood]
    have := ih h2
    simp_all [allGood]
  | case4 =>
    intro h
    simp [haw_nil, allGood]

theorem haw_headAl {cs : List Char} (h : headAl cs = true) :
    headAl (hyAfterWord cs) = true :=
  headAl_congr (haw_head cs) h

theorem haw_endsAl : ∀ {cs : List Char}, endsAl cs = true →
    endsAl (hyAfterWord cs) = true := by
  intro cs
  induction cs using hyAfterWord.induct with
  | case1 a b rest hb ha ih =>
    intro h
    rw [haw_match rest ha hb]
    cases rest with
    | nil =>
      exfalso
      have : isAlnum b = true := by simpa [endsAl] using h
      rw [hb] at this
      exact absurd this (by simp)
    | cons r rs =>
      have hone : hyAfterWord (r :: rs) ≠ [] := haw_ne_nil (by simp)
      rw [endsAl_cons₂, endsAl_cons₂, endsAl_cons₂, endsAl_cons_of_ne hone]
      have h2 : endsAl (r :: rs) = true :=
        endsAl_tail (endsAl_tail (endsAl_tail h (by simp)) (by simp)) (by simp)
      exact ih h2
  | case2 a b rest hcond ih =>
    intro h
    rw [haw_nomatch rest (fun hh => hcond hh.1 hh.2)]
    have hone : hyAfterWord ('-' :: b :: rest) ≠ [] := haw_ne_nil (by simp)
    rw [endsAl_cons_of_ne hone]
    exact ih (endsAl_tail h (by simp))
  | case3 c rest hcc ih =>
    intro h
    rw [haw_cons rest hcc]
    cases rest with
    | nil =>
      rw [haw_nil]
      exact h
    | cons r rs =>
      have hone : hyAfterWord (r :: rs) ≠ [] := haw_ne_nil (by simp)
      rw [endsAl_cons_of_ne hone]
      exact ih (endsAl_tail h (by simp))
  | case4 =>
    intro h
    simp [haw_nil, endsAl]

/-! ### Stage lemmas: step 6 (`hyBeforeWord`) -/

theorem hbw_nil : hyBeforeWord [] = [] := by rw [hyBeforeWord]

theorem hbw_match {a b : Char} (rest : List Char) (ha : isAlnum a = false)
    (hb : isAlnum b = true) :
    hyBeforeWord (a :: '-' :: b :: rest) =
      ' ' :: '-' :: ' ' :: b :: hyBeforeWord rest := by
  rw [hyBeforeWord, ha, hb]

theorem hbw_nomatch {a b : Char} (rest : List Char)
    (hc : ¬(isAlnum a = false ∧ isAlnum b = true)) :
    hyBeforeWord (a :: '-' :: b :: rest) =
      a :: hyBeforeWord ('-' :: b :: rest) := by
  cases ha : isAlnum a <;> cases hb : isAlnum b <;> rw [hyBeforeWord, ha, hb]
  exact absurd ⟨ha, hb⟩ hc

theorem hbw_cons {c : Char} (rest : List Char)
    (h : ∀ b rs, rest = '-' :: b :: rs → False) :
    hyBeforeWord (c :: rest) = c :: hyBeforeWord rest := by
  rcases rest with _ | ⟨d, _ | ⟨b, rs⟩⟩
  · rw [hyBeforeWord]
    simp
  · rw [hyBeforeWord]
    simp
  · have hd : d ≠ '-' := fun hdd => h b rs (by rw [hdd])
    rw [hyBeforeWord]
    simp [hd]

theorem hbw_head_cases (x : Char) (xs : List Char) :
    (hyBeforeWord (x :: xs)).head? = some x ∨
      ((hyBeforeWord (x :: xs)).head? = some ' ' ∧ isAlnum x = false ∧
        ∃ y ys, xs = '-' :: y :: ys ∧ isAlnum y = true) := by
  rcases xs with _ | ⟨d, _ | ⟨b, rs⟩⟩
  · left
    rw [hbw_cons _ (by intro b rs h; simp at h)]
    rfl
  · left
    rw [hbw_cons _ (by intro b rs h; simp at h)]
    rfl
  · by_cases hd : d = '-'
    · subst hd
      by_cases hab : isAlnum x = false ∧ isAlnum b = true
      · right
        rw [hbw_match _ hab.1 hab.2]
        exact ⟨rfl, hab.1, b, rs, rfl, hab.2⟩
      · left
        rw [hbw_nomatch _ hab]
        rfl
    · left
      rw [hbw_cons _ (fun u v hu => by
        injection hu with h1 h2
        exact hd h1)]
      rfl

theorem hbw_ne_nil {cs : List Char} (h : cs ≠ []) : hyBeforeWord cs ≠ [] := by
  cases cs with
  | nil => exact absurd rfl h
  | cons x xs =>
    rcases hbw_head_cases x xs with h1 | ⟨h1, _⟩ <;>
      · intro h0
        rw [h0] at h1
        simp at h1

theorem hbw_noHH : ∀ {cs : List Char}, hasPair hhP cs = false →
    hasPair hhP (hyBeforeWord cs) = false := by
  intro cs
  induction cs using hyBeforeWord.induct with
  | case1 a b rest hb ha ih =>
    intro h
    rw [hbw_match rest ha hb]
    have h4 := ih (hasPair_tail (hasPair_tail (hasPair_tail h)))
    have hx : hasPair hhP (b :: hyBeforeWord rest) = false :=
      hasPair_cons_of (fun x => by simp [hhP, alnum_not_dash hb]) h4
    have hy : hasPair hhP (' ' :: b :: hyBeforeWord rest) = false :=
      hasPair_cons_of (fun x => by simp [hhP]) hx
    rw [hasPair_cons_eq]
    refine Bool.or_eq_false_iff.2 ⟨by simp [hhP], ?_⟩
    rw [hasPair_cons_eq]
    exact Bool.or_eq_false_iff.2 ⟨by simp [hhP], hy⟩
  | case2 a b rest hcond ih =>
    intro h
    rw [hbw_nomatch rest (fun hh => hcond hh.1 hh.2)]
    have ih2 := ih (hasPair_tail h)
    rw [hasPair_cons_eq, ih2, Bool.or_false]
    have ha : a ≠ '-' := by
      have := hasPair_head h
      simp only [hhP] at this
      intro hh
      rw [hh] at this
      simp at this
    cases hout : hyBeforeWord ('-' :: b :: rest) with
    | nil => rfl
    | cons x xs => simp [hhP, ha]
  | case3 c rest hcc ih =>
    intro h
    rw [hbw_cons rest hcc]
    have ih2 := ih (hasPair_tail h)
    rw [hasPair_cons_eq, ih2, Bool.or_false]
    cases rest with
    | nil => rw [hbw_nil]
    | cons d rs =>
      have hcd : hhP c d = false := hasPair_head h
      rcases hbw_head_cases d rs with h1 | ⟨h1, _⟩ <;>
      · cases hout : hyBeforeWord (d :: rs) with
        | nil => rfl
        | cons x xs =>
          rw [hout] at h1
          simp only [List.head?_cons, Option.some.injEq] at h1
          subst h1
          first
          | simpa [hhP] using hcd
          | simp [hhP]
  | case4 =>
    intro h
    simp [hbw_nil, hasPair]

theorem hbw_noB6 : ∀ {cs : List Char}, hasPair hhP cs = false →
    hasTri b6P (hyBeforeWord cs) = false := by
  intro cs
  induction cs using hyBeforeWord.induct with
  | case1 a b rest hb ha ih =>
    intro h
    rw [hbw_match rest ha hb]
    have h4 := ih (hasPair_tail (hasPair_tail (hasPair_tail h)))
    have hx : hasTri b6P (b :: hyBeforeWord rest) = false :=
      hasTri_cons_of (fun u v => by simp [b6P, hb]) h4
    have hy : hasTri b6P (' ' :: b :: hyBeforeWord rest) = false := by
      rw [hasTri_cons_eq, hx, Bool.or_false]
      cases hyBeforeWord rest with
      | nil => rfl
      | cons z zs => simp [b6P, alnum_not_dash hb]
    have hz : hasTri b6P ('-' :: ' ' :: b :: hyBeforeWord rest) = false := by
      rw [hasTri_cons_eq, hy, Bool.or_false]
      simp [b6P]
    rw [hasTri_cons_eq, hz, Bool.or_false]
    simp [b6P, isAlnum_sp]
  | case2 a b rest hcond ih =>
    intro h
    rw [hbw_nomatch rest (fun hh => hcond hh.1 hh.2)]
    have ih2 := ih (hasPair_tail h)
    rw [hasTri_cons_eq, ih2, Bool.or_false]
    have hbd : b ≠ '-' := by
      have := hasPair_head (hasPair_tail h)
      simp only [hhP] at this
      intro hh
      rw [hh] at this
      simp at this
    rw [hbw_cons _ (fun x rs hx => by
      injection hx with h1 h2
      exact hbd h1)]
    cases hout : hyBeforeWord (b :: rest) with
    | nil => rfl
    | cons x xs =>
      rcases hbw_head_cases b rest with h1 | ⟨h1, _⟩
      · rw [hout] at h1
        simp only [List.head?_cons, Option.some.injEq] at h1
        have hb6 : b6P a '-' x = false := by
          rw [h1]
          simp only [b6P]
          by_cases hA : isAlnum a = true
          · simp [hA]
          · have hB : isAlnum b = false := by
              cases hB2 : isAlnum b with
              | true => exact absurd (hcond (by simpa using hA) hB2) (by simp)
              | false => rfl
            simp [hB]
        simpa using hb6
      · rw [hout] at h1
        simp only [List.head?_cons, Option.some.injEq] at h1
        rw [h1]
        simp [b6P, isAlnum_sp]
  | case3 c rest hcc ih =>
    intro h
    rw [hbw_cons rest hcc]
    have ih2 := ih (hasPair_tail h)
    rw [hasTri_cons_eq, ih2, Bool.or_false]
    cases hout : hyBeforeWord rest with
    | nil => rfl
    | cons z zs =>
      cases zs with
      | nil => rfl
      | cons z2 zs2 =>
        by_cases hzd : z = '-'
        · exfalso
          subst hzd
          cases hrest : rest with
          | nil =>
            rw [hrest, hbw_nil] at hout
            simp at hout
          | cons r rl =>
            rcases hbw_head_cases r rl with h1 | ⟨h1, hra, y, ys, hrl, hy⟩
            · rw [hrest] at hout
              rw [hout] at h1
              simp only [List.head?_cons, Option.some.injEq] at h1
              subst h1
              cases hrl : rl with
              | nil =>
                rw [hrl] at hout
                rw [hbw_cons _ (by intro u v hu; simp at hu), hbw_nil] at hout
                simp at hout
              | cons u ul => exact hcc u ul (by rw [hrest, hrl])
            · rw [hrest] at hout
              rw [hout] at h1
              simp at h1
        · simp [b6P, hzd]
  | case4 =>
    intro h
    simp [hbw_nil, hasTri]

theorem hbw_noB5 : ∀ {cs : List Char}, hasPair hhP cs = false →
    hasTri b5P cs = false → hasTri b5P (hyBeforeWord cs) = false := by
  intro cs
  induction cs using hyBeforeWord.induct with
  | case1 a b rest hb ha ih =>
    intro hHH h5
    rw [hbw_match rest ha hb]
    have hX := ih (hasPair_tail (hasPair_tail (hasPair_tail hHH)))
      (hasTri_tail (hasTri_tail (hasTri_tail h5)))
    have hbX : hasTri b5P (b :: hyBeforeWord rest) = false := by
      rw [hasTri_cons_eq, hX, Bool.or_false]
      cases hout : hyBeforeWord rest with
      | nil => rfl
      | cons z zs =>
        cases zs with
        | nil => rfl
        | cons z2 zs2 =>
          by_cases hzd : z = '-'
          · subst hzd
            -- the head of the rewritten rest is a hyphen, so rest starts with one
            cases hrest : rest with
            | nil =>
              rw [hrest, hbw_nil] at hout
              simp at hout
            | cons r rl =>
              rcases hbw_head_cases r rl with h1 | ⟨h1, _⟩
              · rw [hrest] at hout
                rw [hout] at h1
                simp only [List.head?_cons, Option.some.injEq] at h1
                -- r = '-' (h1 : '-' = r)
                cases hrl : rl with
                | nil =>
                  rw [hrl, ← h1] at hout
                  rw [hbw_cons _ (by intro u v hu; simp at hu), hbw_nil] at hout
                  simp at hout
                | cons u ul =>
                  -- input triple (b, '-', u) forces u alphanumeric
                  have htri : b5P b r u = false := by
                    have := h5
                    rw [hrest, hrl] at this
                    exact hasTri_head (hasTri_tail (hasTri_tail this))
                  rw [← h1] at htri
                  simp only [b5P, Bool.and_eq_false_iff] at htri
                  rcases htri with (htri | htri) | htri
                  · simp at htri
                  · simp [b5P, htri]
                  · have hu : isAlnum u = true := by simpa using htri
                    -- u alphanumeric survives as the next character
                    have h2 : z2 = u := by
                      rw [hrl, ← h1] at hout
                      rw [hbw_cons _ (fun p q hp => by
                        injection hp with hp1 hp2
                        exact alnum_not_dash hu hp1)] at hout
                      rcases hbw_head_cases u ul with h3 | ⟨h3, h4, _⟩
                      · injection hout with e1 e2
                        rw [e2] at h3
                        simpa using h3
                      · rw [hu] at h4
                        exact absurd h4 (by simp)
                    rw [h2]
                    simp [b5P, hu]
              · rw [hrest] at hout
                rw [hout] at h1
                simp at h1
          · simp [b5P, hzd]
    have h2 : hasTri b5P (' ' :: b :: hyBeforeWord rest) = false := by
      rw [hasTri_cons_eq, hbX, Bool.or_false]
      cases hyBeforeWord rest with
      | nil => rfl
      | cons z zs => simp [b5P, isAlnum_sp]
    have h3 : hasTri b5P ('-' :: ' ' :: b :: hyBeforeWord rest) = false := by
      rw [hasTri_cons_eq, h2, Bool.or_false]
      simp [b5P, isAlnum_dash]
    rw [hasTri_cons_eq, h3, Bool.or_false]
    simp [b5P, isAlnum_sp]
  | case2 a b rest hcond ih =>
    intro hHH h5
    rw [hbw_nomatch rest (fun hh => hcond hh.1 hh.2)]
    have ih2 := ih (hasPair_tail hHH) (hasTri_tail h5)
    rw [hasTri_cons_eq, ih2, Bool.or_false]
    have hbd : b ≠ '-' := by
      have := hasPair_head (hasPair_tail hHH)
      simp only [hhP] at this
      intro hh
      rw [hh] at this
      simp at this
    rw [hbw_cons _ (fun x rs hx => by
      injection hx with h1 h2
      exact hbd h1)]
    have hfst : b5P a '-' b = false := hasTri_head h5
    cases hout : hyBeforeWord (b :: rest) with
    | nil => rfl
    | cons x xs =>
      rcases hbw_head_cases b rest with h1 | ⟨h1, hbf, _⟩
      · rw [hout] at h1
        simp only [List.head?_cons, Option.some.injEq] at h1
        rw [h1]
        simpa using hfst
      · rw [hout] at h1
        simp only [List.head?_cons, Option.some.injEq] at h1
        rw [h1]
        have haf : isAlnum a = false := by
          simp only [b5P, Bool.and_eq_false_iff] at hfst
          rcases hfst with (hf | hf) | hf
          · simp at hf
          · simpa using hf
          · rw [hbf] at hf
            simp at hf
        simp [b5P, haf]
  | case3 c rest hcc ih =>
    intro hHH h5
    rw [hbw_cons rest hcc]
    have ih2 := ih (hasPair_tail hHH) (hasTri_tail h5)
    rw [hasTri_cons_eq, ih2, Bool.or_false]
    cases hout : hyBeforeWord rest with
    | nil => rfl
    | cons z zs =>
      cases zs with
      | nil => rfl
      | cons z2 zs2 =>
        by_cases hzd : z = '-'
        · exfalso
          subst hzd
          cases hrest : rest with
          | nil =>
            rw [hrest, hbw_nil] at hout
            simp at hout
          | cons r rl =>
            rcases hbw_head_cases r rl with h1 | ⟨h1, _⟩
            · rw [hrest] at hout
              rw [hout] at h1
              simp only [List.head?_cons, Option.some.injEq] at h1
              cases hrl : rl with
              | nil =>
                rw [hrl, ← h1] at hout
                rw [hbw_cons _ (by intro u v hu; simp at hu), hbw_nil] at hout
                simp at hout
              | cons u ul => exact hcc u ul (by rw [hrest, hrl, ← h1])
            · rw [hrest] at hout
              rw [hout] at h1
              simp at h1
        · simp [b5P, hzd]
  | case4 =>
    intro hHH h5
    simp [hbw_nil, hasTri]

theorem hbw_allGood : ∀ {cs : List Char}, allGood cs = true →
    allGood (hyBeforeWord cs) = true := by
  intro cs
  induction cs using hyBeforeWord.induct with
  | case1 a b rest hb ha ih =>
    intro h
    rw [hbw_match rest ha hb]
    have h2 : allGood rest = true := by simp_all [allGood]
    have := ih h2
    simp_all [allGood, goodChar]
  | case2 a b rest hcond ih =>
    intro h
    rw [hbw_nomatch rest (fun hh => hcond hh.1 hh.2)]
    have h2 : allGood ('-' :: b :: rest) = true := by simp_all [allGood, goodChar]
    have := ih h2
    simp_all [allGood]
  | case3 c rest hcc ih =>
    intro h
    rw [hbw_cons rest hcc]
    have h2 : allGood rest = true := by simp_all [allGood]
    have := ih h2
    simp_all [allGood]
  | case4 =>
    intro h
    simp [hbw_nil, allGood]

theorem hbw_headAl {cs : List Char} (h : headAl cs = true) :
    headAl (hyBeforeWord cs) = true := by
  cases cs with
  | nil => simp [hbw_nil, headAl]
  | cons x xs =>
    have hal : isAlnum x = true := by simpa [headAl] using h
    rcases hbw_head_cases x xs with h1 | ⟨h1, h2, _⟩
    · exact headAl_congr (by rw [h1]; rfl) h
    · rw [hal] at h2
      exact absurd h2 (by simp)

theorem hbw_endsAl : ∀ {cs : List Char}, endsAl cs = true →
    endsAl (hyBeforeWord cs) = true := by
  intro cs
  induction cs using hyBeforeWord.induct with
  | case1 a b rest hb ha ih =>
    intro h
    rw [hbw_match rest ha hb]
    cases rest with
    | nil =>
      rw [hbw_nil]
      simpa [endsAl] using hb
    | cons r rs =>
      have hone : hyBeforeWord (r :: rs) ≠ [] := hbw_ne_nil (by simp)
      rw [endsAl_cons₂, endsAl_cons₂, endsAl_cons₂, endsAl_cons_of_ne hone]
      exact ih (endsAl_tail (endsAl_tail (endsAl_tail h (by simp)) (by simp)) (by simp))
  | case2 a b rest hcond ih =>
    intro h
    rw [hbw_nomatch rest (fun hh => hcond hh.1 hh.2)]
    have hone : hyBeforeWord ('-' :: b :: rest) ≠ [] := hbw_ne_nil (by simp)
    rw [endsAl_cons_of_ne hone]
    exact ih (endsAl_tail h (by simp))
  | case3 c rest hcc ih =>
    intro h
    rw [hbw_cons rest hcc]
    cases rest with
    | nil =>
      rw [hbw_nil]
      exact h
    | cons r rs =>
      have hone : hyBeforeWord (r :: rs) ≠ [] := hbw_ne_nil (by simp)
      rw [endsAl_cons_of_ne hone]
      exact ih (endsAl_tail h (by simp))
  | case4 =>
    intro h
    simp [hbw_nil, endsAl]

/-! ### Stage lemmas: step 7 (`collapseSeps`) -/

/-- `k` repetitions of the text `" - "`. -/
def sepReps : Nat → List Char
  | 0 => []
  | k + 1 => ' ' :: '-' :: ' ' :: sepReps k

/-- `j` repetitions of the text `"- "`. -/
def dashReps : Nat → List Char
  | 0 => []
  | j + 1 => '-' :: ' ' :: dashReps j

theorem sepReps_length (k : Nat) : (sepReps k).length = 3 * k := by
  induction k with
  | zero => rfl
  | succ k ih => simp [sepReps, ih]; omega

theorem dashReps_length (j : Nat) : (dashReps j).length = 2 * j := by
  induction j with
  | zero => rfl
  | succ j ih => simp [dashReps, ih]; omega

theorem repsSpDashSp_pos {cs : List Char} (h : 0 < repsSpDashSp cs) :
    ∃ cs', cs = ' ' :: '-' :: ' ' :: cs' ∧
      repsSpDashSp cs = repsSpDashSp cs' + 1 := by
  rcases cs with _ | ⟨a, _ | ⟨b, _ | ⟨c, t⟩⟩⟩
  · simp [repsSpDashSp] at h
  · simp [repsSpDashSp] at h
  · simp [repsSpDashSp] at h
  · rw [repsSpDashSp] at h ⊢
    cases hg : (a = ' ' && b = '-' && c = ' ') with
    | false => rw [hg] at h; simp at h
    | true =>
      simp only [Bool.and_eq_true, decide_eq_true_eq] at hg
      obtain ⟨⟨rfl, rfl⟩, rfl⟩ := hg
      exact ⟨t, rfl, rfl⟩

theorem sepReps_prefix : ∀ (k : Nat) (cs : List Char), k ≤ repsSpDashSp cs →
    cs = sepReps k ++ cs.drop (3 * k) := by
  intro k
  induction k with
  | zero => intro cs _; simp [sepReps]
  | succ k ih =>
    intro cs hk
    have hpos : 0 < repsSpDashSp cs := by omega
    obtain ⟨cs', rfl, hr⟩ := repsSpDashSp_pos hpos
    rw [hr] at hk
    have hk2 : k ≤ repsSpDashSp cs' := by omega
    have := ih cs' hk2
    calc ' ' :: '-' :: ' ' :: cs'
        = ' ' :: '-' :: ' ' :: (sepReps k ++ cs'.drop (3 * k)) := by rw [← this]
      _ = sepReps (k + 1) ++ (' ' :: '-' :: ' ' :: cs').drop (3 * (k + 1)) := by
          simp [sepReps]
          rw [show 3 * (k + 1) = 3 * k + 3 by omega]
          simp [List.drop_succ_cons]

theorem repsDashSp_decomp : ∀ cs : List Char,
    cs = dashReps (repsDashSp cs) ++ cs.drop (2 * repsDashSp cs) := by
  intro cs
  induction cs using repsDashSp.induct with
  | case1 a b rest hg ih =>
    rw [repsDashSp, hg]
    simp only [Bool.and_eq_true, decide_eq_true_eq] at hg
    obtain ⟨rfl, rfl⟩ := hg
    calc '-' :: ' ' :: rest
        = '-' :: ' ' :: (dashReps (repsDashSp rest) ++ rest.drop (2 * repsDashSp rest)) := by
          rw [← ih]
      _ = _ := by
          simp [dashReps]
          rw [show 2 * (repsDashSp rest + 1) = 2 * repsDashSp rest + 2 by omega]
          simp [List.drop_succ_cons]
  | case2 a b rest hg =>
    rw [repsDashSp, hg]
    simp [dashReps]
  | case3 cs h =>
    rcases cs with _ | ⟨a, _ | ⟨b, t⟩⟩
    · simp [repsDashSp, dashReps]
    · simp [repsDashSp, dashReps]
    · exact absurd rfl (h a b t)

theorem try7_spec : ∀ (K : Nat) {cs : List Char} {n : Nat}, try7 cs K = some n →
    ∃ k, 1 ≤ k ∧ k ≤ K ∧ 1 ≤ repsDashSp (cs.drop (3 * k)) ∧
      n = 3 * k + 2 * repsDashSp (cs.drop (3 * k)) := by
  intro K
  induction K with
  | zero => intro cs n h; simp [try7] at h
  | succ K ih =>
    intro cs n h
    rw [try7] at h
    by_cases hj : 0 < repsDashSp (cs.drop (3 * (K + 1)))
    · rw [if_pos hj] at h
      refine ⟨K + 1, by omega, le_refl _, by omega, ?_⟩
      simpa using h.symm
    · rw [if_neg hj] at h
      obtain ⟨k, h1, h2, h3, h4⟩ := ih h
      exact ⟨k, h1, by omega, h3, h4⟩

theorem sepMatch_decomp {cs : List Char} {n : Nat} (h : sepMatch cs = some n) :
    ∃ k j, 1 ≤ k ∧ 1 ≤ j ∧ n = 3 * k + 2 * j ∧
      cs = sepReps k ++ dashReps j ++ cs.drop n := by
  obtain ⟨k, hk1, hk2, hj, hn⟩ := try7_spec (repsSpDashSp cs) h
  refine ⟨k, repsDashSp (cs.drop (3 * k)), hk1, hj, hn, ?_⟩
  have e1 : cs = sepReps k ++ cs.drop (3 * k) := sepReps_prefix k cs hk2
  have e2 := repsDashSp_decomp (cs.drop (3 * k))
  rw [List.drop_drop] at e2
  calc cs = sepReps k ++ cs.drop (3 * k) := e1
    _ = sepReps k ++ (dashReps (repsDashSp (cs.drop (3 * k))) ++
          cs.drop (3 * k + 2 * repsDashSp (cs.drop (3 * k)))) := by rw [← e2]
    _ = _ := by
        rw [hn, List.append_assoc]

theorem sepMatch_head {cs : List Char} {n : Nat} (h : sepMatch cs = some n) :
    cs.head? = some ' ' := by
  obtain ⟨k, j, hk, hj, hn, hdec⟩ := sepMatch_decomp h
  rw [hdec]
  cases k with
  | zero => omega
  | succ k => rfl

theorem sepMatch_ge {cs : List Char} {n : Nat} (h : sepMatch cs = some n) :
    5 ≤ n := by
  obtain ⟨k, j, hk, hj, hn, _⟩ := sepMatch_decomp h
  omega

theorem endsAl_pre_dashReps : ∀ (j : Nat) (pre : List Char), 1 ≤ j →
    endsAl (pre ++ dashReps j) = false := by
  intro j
  induction j with
  | zero => intro pre h; omega
  | succ j ih =>
    intro pre _
    cases j with
    | zero =>
      have : pre ++ dashReps 1 = (pre ++ ['-']) ++ [' '] := by
        simp [dashReps]
      rw [this, endsAl_append_single]
      exact isAlnum_sp
    | succ j2 =>
      have : pre ++ dashReps (j2 + 1 + 1) = (pre ++ ['-', ' ']) ++ dashReps (j2 + 1) := by
        simp [dashReps]
      rw [this]
      exact ih (pre ++ ['-', ' ']) (by omega)

theorem dashReps_append_drop : ∀ (j : Nat) (t : List Char), 1 ≤ j →
    (dashReps j ++ t).drop (2 * j - 1) = ' ' :: t := by
  intro j
  induction j with
  | zero => intro t h; omega
  | succ j ih =>
    intro t _
    cases j with
    | zero => simp [dashReps]
    | succ j2 =>
      have e : dashReps (j2 + 1 + 1) ++ t = '-' :: ' ' :: (dashReps (j2 + 1) ++ t) := by
        simp [dashReps]
      rw [e, show 2 * (j2 + 1 + 1) - 1 = (2 * (j2 + 1) - 1) + 2 by omega]
      simpa using ih t (by omega)

theorem collapseSeps_nil : collapseSeps [] = [] := by rw [collapseSeps]

theorem collapseSeps_match {c : Char} {rest : List Char} {n : Nat}
    (h : sepMatch (c :: rest) = some n) :
    collapseSeps (c :: rest) = ' ' :: '-' :: ' ' :: collapseSeps (rest.drop (n - 1)) := by
  rw [collapseSeps, h]

theorem collapseSeps_nomatch {c : Char} {rest : List Char}
    (h : sepMatch (c :: rest) = none) :
    collapseSeps (c :: rest) = c :: collapseSeps rest := by
  rw [collapseSeps, h]

theorem sepMatch_pred_sp {cs : List Char} {n : Nat} (h : sepMatch cs = some n) :
    cs.drop (n - 1) = ' ' :: cs.drop n := by
  obtain ⟨k, j, hk, hj, hn, hdec⟩ := sepMatch_decomp h
  have e0 : cs.drop (3 * k) = dashReps j ++ cs.drop n := by
    conv_lhs => rw [hdec, List.append_assoc]
    apply List.drop_left'
    simp [sepReps_length]
  have e1 : cs.drop (n - 1) = (dashReps j ++ cs.drop n).drop (2 * j - 1) := by
    rw [← e0, List.drop_drop]
    congr 1
    omega
  rw [e1, dashReps_append_drop j _ hj]

theorem collapseSeps_ne_nil {cs : List Char} (h : cs ≠ []) :
    collapseSeps cs ≠ [] := by
  cases cs with
  | nil => exact absurd rfl h
  | cons c rest =>
    cases hm : sepMatch (c :: rest) with
    | some n => rw [collapseSeps_match hm]; simp
    | none => rw [collapseSeps_nomatch hm]; simp

theorem collapseSeps_head (cs : List Char) :
    (collapseSeps cs).head? = cs.head? := by
  cases cs with
  | nil => simp [collapseSeps_nil]
  | cons c rest =>
    cases hm : sepMatch (c :: rest) with
    | some n =>
      rw [collapseSeps_match hm]
      have := sepMatch_head hm
      simp only [List.head?_cons, Option.some.injEq] at this ⊢
      exact this.symm
    | none =>
      rw [collapseSeps_nomatch hm]
      simp

theorem collapseSeps_allGood : ∀ {cs : List Char}, allGood cs = true →
    allGood (collapseSeps cs) = true := by
  intro cs
  induction cs using collapseSeps.induct with
  | case1 => intro h; simpa [collapseSeps_nil] using h
  | case2 c rest n hm ih =>
    intro h
    rw [collapseSeps_match hm]
    have h2 : allGood (rest.drop (n - 1)) = true :=
      allGood_drop (by simp_all [allGood]) _
    have := ih h2
    simp_all [allGood, goodChar]
  | case3 c rest hm ih =>
    intro h
    rw [collapseSeps_nomatch hm]
    have h2 : allGood rest = true := by simp_all [allGood]
    have := ih h2
    simp_all [allGood]

theorem collapseSeps_headAl {cs : List Char} (h : headAl cs = true) :
    headAl (collapseSeps cs) = true :=
  headAl_congr (collapseSeps_head cs) h

theorem collapseSeps_endsAl : ∀ {cs : List Char}, endsAl cs = true →
    endsAl (collapseSeps cs) = true := by
  intro cs
  induction cs using collapseSeps.induct with
  | case1 => intro h; simpa [collapseSeps_nil] using h
  | case2 c rest n hm ih =>
    intro h
    rw [collapseSeps_match hm]
    obtain ⟨k, j, hk, hj, hn, hdec⟩ := sepMatch_decomp hm
    have htail : (c :: rest).drop n = rest.drop (n - 1) := by
      cases n with
      | zero => omega
      | succ m => simp
    cases hdr : rest.drop (n - 1) with
    | nil =>
      exfalso
      have : endsAl (c :: rest) = false := by
        rw [hdec]
        rw [htail, hdr, List.append_nil]
        exact endsAl_pre_dashReps j (sepReps k) hj
      rw [h] at this
      exact absurd this (by simp)
    | cons t ts =>
      rw [hdr] at ih
      have hone : collapseSeps (t :: ts) ≠ [] := collapseSeps_ne_nil (by simp)
      rw [endsAl_cons₂, endsAl_cons₂, endsAl_cons_of_ne hone]
      refine ih ?_
      have h2 : endsAl ((c :: rest).drop n) = true := endsAl_drop h n
      rw [htail, hdr] at h2
      exact h2
  | case3 c rest hm ih =>
    intro h
    rw [collapseSeps_nomatch hm]
    cases rest with
    | nil =>
      rw [collapseSeps_nil]
      exact h
    | cons r rs =>
      have hone : collapseSeps (r :: rs) ≠ [] := collapseSeps_ne_nil (by simp)
      rw [endsAl_cons_of_ne hone]
      exact ih (endsAl_tail h (by simp))

theorem sepMatch_not_sp {c : Char} {rs : List Char} (h : c ≠ ' ') :
    sepMatch (c :: rs) = none := by
  cases hm : sepMatch (c :: rs) with
  | none => rfl
  | some n =>
    have := sepMatch_head hm
    simp only [List.head?_cons, Option.some.injEq] at this
    exact absurd this h

theorem collapseSeps_noHH : ∀ {cs : List Char}, hasPair hhP cs = false →
    hasPair hhP (collapseSeps cs) = false := by
  intro cs
  induction cs using collapseSeps.induct with
  | case1 => intro h; simpa [collapseSeps_nil] using h
  | case2 c rest n hm ih =>
    intro h
    rw [collapseSeps_match hm]
    have h2 := ih (hasPair_drop (hasPair_tail h) (n - 1))
    have hx : hasPair hhP (' ' :: collapseSeps (rest.drop (n - 1))) = false :=
      hasPair_cons_of (fun b => by simp [hhP]) h2
    have hy : hasPair hhP ('-' :: ' ' :: collapseSeps (rest.drop (n - 1))) = false := by
      rw [hasPair_cons_eq, hx, Bool.or_false]
      simp [hhP]
    exact hasPair_cons_of (fun b => by simp [hhP]) hy
  | case3 c rest hm ih =>
    intro h
    rw [collapseSeps_nomatch hm]
    have ih2 := ih (hasPair_tail h)
    rw [hasPair_cons_eq, ih2, Bool.or_false]
    cases rest with
    | nil => rw [collapseSeps_nil]
    | cons d rs =>
      cases hout : collapseSeps (d :: rs) with
      | nil => rfl
      | cons x xs =>
        have hx : x = d := by
          have := collapseSeps_head (d :: rs)
          rw [hout] at this
          simpa using this
        rw [hx]
        simpa using hasPair_head h

theorem collapseSeps_noB5 : ∀ {cs : List Char}, hasTri b5P cs = false →
    hasTri b5P (collapseSeps cs) = false := by
  intro cs
  induction cs using collapseSeps.induct with
  | case1 => intro h; simpa [collapseSeps_nil] using h
  | case2 c rest n hm ih =>
    intro h
    rw [collapseSeps_match hm]
    have h2 := ih (hasTri_drop (hasTri_tail h) (n - 1))
    exact hasTri_cons_of (fun b d => by simp [b5P, isAlnum_sp])
      (hasTri_cons_of (fun b d => by simp [b5P, isAlnum_dash])
        (hasTri_cons_of (fun b d => by simp [b5P, isAlnum_sp]) h2))
  | case3 c rest hm ih =>
    intro h
    rw [collapseSeps_nomatch hm]
    have ih2 := ih (hasTri_tail h)
    rw [hasTri_cons_eq, ih2, Bool.or_false]
    cases rest with
    | nil => rw [collapseSeps_nil]
    | cons d rs =>
      cases hout : collapseSeps (d :: rs) with
      | nil => rfl
      | cons x xs =>
        have hx : x = d := by
          have := collapseSeps_head (d :: rs)
          rw [hout] at this
          simpa using this
        cases xs with
        | nil => rfl
        | cons x2 xs2 =>
          by_cases hd : d = '-'
          · cases hrs : rs with
            | nil =>
              rw [hrs, hd, collapseSeps_nomatch (sepMatch_not_sp (by decide)),
                collapseSeps_nil] at hout
              simp at hout
            | cons u ul =>
              have hstep : collapseSeps ('-' :: u :: ul) =
                  '-' :: collapseSeps (u :: ul) :=
                collapseSeps_nomatch (sepMatch_not_sp (by decide))
              rw [hrs, hd, hstep] at hout
              have hx2 : x2 = u := by
                have e2 : collapseSeps (u :: ul) = x2 :: xs2 := by
                  injection hout
                have := collapseSeps_head (u :: ul)
                rw [e2] at this
                simpa using this
              rw [hx, hx2, hd]
              have hh : hasTri b5P (c :: '-' :: u :: ul) = false := by
                rw [← hd, ← hrs]; exact h
              exact hasTri_head hh
          · rw [hx]
            simp [b5P, hd]

theorem collapseSeps_noB6 : ∀ {cs : List Char}, hasTri b6P cs = false →
    hasTri b6P (collapseSeps cs) = false := by
  intro cs
  induction cs using collapseSeps.induct with
  | case1 => intro h; simpa [collapseSeps_nil] using h
  | case2 c rest n hm ih =>
    intro h
    rw [collapseSeps_match hm]
    obtain ⟨m, rfl⟩ : ∃ m, n = m + 1 := ⟨n - 1, by have := sepMatch_ge hm; omega⟩
    have h2 : hasTri b6P (collapseSeps (rest.drop (m + 1 - 1))) = false :=
      ih (hasTri_drop (hasTri_tail h) (m + 1 - 1))
    simp only [Nat.add_sub_cancel] at h2 ⊢
    have hL1 : hasTri b6P (' ' :: collapseSeps (rest.drop m)) = false := by
      rw [hasTri_cons_eq, h2, Bool.or_false]
      cases hT : collapseSeps (rest.drop m) with
      | nil => rfl
      | cons t0 ts =>
        cases ts with
        | nil => rfl
        | cons t1 ts2 =>
          have hrm : (rest.drop m).head? = some t0 := by
            have := collapseSeps_head (rest.drop m)
            rw [hT] at this
            exact this.symm
          by_cases ht0 : t0 = '-'
          · subst ht0
            cases hrm2 : rest.drop m with
            | nil => rw [hrm2] at hrm; simp at hrm
            | cons u us =>
              have hu : u = '-' := by
                rw [hrm2] at hrm
                simpa using hrm
              subst hu
              cases hus : us with
              | nil =>
                rw [hrm2, hus, collapseSeps_nomatch (sepMatch_not_sp (by decide)),
                  collapseSeps_nil] at hT
                simp at hT
              | cons u2 us2 =>
                have hstep : collapseSeps ('-' :: u2 :: us2) =
                    '-' :: collapseSeps (u2 :: us2) :=
                  collapseSeps_nomatch (sepMatch_not_sp (by decide))
                rw [hrm2, hus, hstep] at hT
                have ht1 : t1 = u2 := by
                  have e2 : collapseSeps (u2 :: us2) = t1 :: ts2 := by
                    injection hT
                  have := collapseSeps_head (u2 :: us2)
                  rw [e2] at this
                  simpa using this
                subst ht1
                have hpred : (c :: rest).drop m = ' ' :: rest.drop m := by
                  have hp := sepMatch_pred_sp hm
                  simpa using hp
                have h3 : hasTri b6P ((c :: rest).drop m) = false := hasTri_drop h m
                rw [hpred, hrm2, hus] at h3
                exact hasTri_head h3
          · simp [b6P, ht0]
    rw [hasTri_cons_eq]
    have hL2 : hasTri b6P ('-' :: ' ' :: collapseSeps (rest.drop m)) = false := by
      rw [hasTri_cons_eq, hL1, Bool.or_false]
      cases collapseSeps (rest.drop m) with
      | nil => rfl
      | cons t0 ts => simp [b6P]
    rw [hL2, Bool.or_false]
    simp [b6P, isAlnum_sp]
  | case3 c rest hm ih =>
    intro h
    rw [collapseSeps_nomatch hm]
    have ih2 := ih (hasTri_tail h)
    rw [hasTri_cons_eq, ih2, Bool.or_false]
    cases rest with
    | nil => rw [collapseSeps_nil]
    | cons d rs =>
      cases hout : collapseSeps (d :: rs) with
      | nil => rfl
      | cons x xs =>
        have hx : x = d := by
          have := collapseSeps_head (d :: rs)
          rw [hout] at this
          simpa using this
        cases xs with
        | nil => rfl
        | cons x2 xs2 =>
          by_cases hd : d = '-'
          · cases hrs : rs with
            | nil =>
              rw [hrs, hd, collapseSeps_nomatch (sepMatch_not_sp (by decide)),
                collapseSeps_nil] at hout
              simp at hout
            | cons u ul =>
              have hstep : collapseSeps ('-' :: u :: ul) =
                  '-' :: collapseSeps (u :: ul) :=
                collapseSeps_nomatch (sepMatch_not_sp (by decide))
              rw [hrs, hd, hstep] at hout
              have hx2 : x2 = u := by
                have e2 : collapseSeps (u :: ul) = x2 :: xs2 := by
                  injection hout
                have := collapseSeps_head (u :: ul)
                rw [e2] at this
                simpa using this
              rw [hx, hx2, hd]
              have hh : hasTri b6P (c :: '-' :: u :: ul) = false := by
                rw [← hd, ← hrs]; exact h
              exact hasTri_head hh
          · rw [hx]
            simp [b6P, hd]

/-! ### The sanitizer invariant: every output is `Normalized` -/

theorem stage1_of_good {c : Char} (h : goodChar c = true) :
    stage1Char c = true := by
  simp only [goodChar, Bool.or_eq_true, decide_eq_true_eq] at h
  rcases h with (h | h) | h
  · simp [stage1Char, h]
  · subst h; decide
  · simp [stage1Char, h]

theorem all_stage1_of_allGood {cs : List Char} (h : allGood cs = true) :
    cs.all stage1Char = true := by
  apply List.all_eq_true.2
  intro c hc
  exact stage1_of_good (List.all_eq_true.1 h c hc)

theorem restPipeline_normalized (cs : List Char) :
    Normalized (restPipeline cs) := by
  have hr : (replSpecial cs).all stage1Char = true := replSpecial_stage1 cs
  have ht : (trimWsDash (replSpecial cs)).all stage1Char = true :=
    all_of_sublist (trimWsDash_sublist _) hr
  obtain ⟨hth, hte⟩ := trimWsDash_ends hr
  have hwG : allGood (collapseWs (trimWsDash (replSpecial cs))) = true :=
    collapseWs_allGood ht
  have hwH : headAl (collapseWs (trimWsDash (replSpecial cs))) = true :=
    collapseWs_headAl hth
  have hwE : endsAl (collapseWs (trimWsDash (replSpecial cs))) = true :=
    collapseWs_endsAl hte
  set w := collapseWs (trimWsDash (replSpecial cs)) with hw
  have hyG : allGood (hyRuns w) = true := hyRuns_allGood hwG
  have hyH : headAl (hyRuns w) = true := hyRuns_headAl hwH
  have hyE : endsAl (hyRuns w) = true := hyRuns_endsAl hwE
  have hyN : hasPair hhP (hyRuns w) = false := hyRuns_noHH w
  set y := hyRuns w with hy
  have haG : allGood (hyAfterWord y) = true := haw_allGood hyG
  have haH : headAl (hyAfterWord y) = true := haw_headAl hyH
  have haE : endsAl (hyAfterWord y) = true := haw_endsAl hyE
  have haN : hasPair hhP (hyAfterWord y) = false := haw_noHH hyN
  have ha5 : hasTri b5P (hyAfterWord y) = false := haw_noB5 hyN
  set a := hyAfterWord y with hA
  have hbG : allGood (hyBeforeWord a) = true := hbw_allGood haG
  have hbH : headAl (hyBeforeWord a) = true := hbw_headAl haH
  have hbE : endsAl (hyBeforeWord a) = true := hbw_endsAl haE
  have hbN : hasPair hhP (hyBeforeWord a) = false := hbw_noHH haN
  have hb5 : hasTri b5P (hyBeforeWord a) = false := hbw_noB5 haN ha5
  have hb6 : hasTri b6P (hyBeforeWord a) = false := hbw_noB6 haN
  set b := hyBeforeWord a with hB
  have hcG : allGood (collapseSeps b) = true := collapseSeps_allGood hbG
  have hcH : headAl (collapseSeps b) = true := collapseSeps_headAl hbH
  have hcE : endsAl (collapseSeps b) = true := collapseSeps_endsAl hbE
  have hcN : hasPair hhP (collapseSeps b) = false := collapseSeps_noHH hbN
  have hc5 : hasTri b5P (collapseSeps b) = false := collapseSeps_noB5 hb5
  have hc6 : hasTri b6P (collapseSeps b) = false := collapseSeps_noB6 hb6
  set c := collapseSeps b with hC
  refine ⟨collapseWs_allGood (all_stage1_of_allGood hcG),
    collapseWs_headAl hcH, collapseWs_endsAl hcE, collapseWs_noWW c,
    collapseWs_noHH hcN, collapseWs_noB5 hc5, collapseWs_noB6 hc6⟩

theorem sanitizeTitle_normalized (s : String) :
    Normalized (sanitizeTitle s).data := by
  show Normalized (restPipeline (stripFwd s.data))
  exact restPipeline_normalized _

/-! ### The sanitizer as the identity on normalized, `has5`-free text -/

theorem matchCI_subset : ∀ {ps cs r : List Char}, matchCI ps cs = some r →
    ∀ x ∈ r, x ∈ cs := by
  intro ps
  induction ps with
  | nil =>
    intro cs r h x hx
    simp only [matchCI, Option.some.injEq] at h
    exact h ▸ hx
  | cons p ps ih =>
    intro cs r h x hx
    cases cs with
    | nil => simp [matchCI] at h
    | cons c cs2 =>
      simp only [matchCI] at h
      split at h
      · exact List.mem_cons_of_mem c (ih h x hx)
      · exact absurd h (by simp)

theorem afterColon_none {r : List Char} (h : ':' ∉ r) : afterColon r = none := by
  unfold afterColon
  split
  · rename_i rest hd
    exfalso
    apply h
    exact (List.dropWhile_sublist jsWs).subset (hd ▸ List.mem_cons_self ':' rest)
  · rfl

theorem stripFwd_id {cs : List Char} (h : ':' ∉ cs) : stripFwd cs = cs := by
  have key : ∀ ps, (matchCI ps (cs.dropWhile jsWs)).bind afterColon = none := by
    intro ps
    cases hm : matchCI ps (cs.dropWhile jsWs) with
    | none => rfl
    | some r =>
      have hr : ':' ∉ r := fun hx =>
        h ((List.dropWhile_sublist jsWs).subset (matchCI_subset hm ':' hx))
      simp [afterColon_none hr]
  simp only [stripFwd, key]

theorem colon_not_mem_of_allGood {cs : List Char} (h : allGood cs = true) :
    ':' ∉ cs := by
  intro hx
  have := List.all_eq_true.1 h ':' hx
  simp [goodChar, isAlnum] at this

theorem replSpecial_id : ∀ {cs : List Char}, allGood cs = true →
    replSpecial cs = cs := by
  intro cs
  induction cs with
  | nil => intro _; rfl
  | cons c rest ih =>
    intro h
    have hg : goodChar c = true := by
      simp only [allGood, List.all_cons, Bool.and_eq_true] at h
      exact h.1
    have htl : replSpecial rest = rest :=
      ih (by simp_all [allGood])
    have hc : (if isAlnum c || jsWs c then c else '-') = c := by
      simp only [goodChar, Bool.or_eq_true, decide_eq_true_eq] at hg
      rcases hg with (hg | hg) | hg
      · simp [hg]
      · subst hg; rfl
      · subst hg; rfl
    simp only [replSpecial, List.map_cons, hc]
    simp only [replSpecial] at htl
    rw [htl]

theorem trimWsDash_id {cs : List Char} (hh : headAl cs = true)
    (he : endsAl cs = true) : trimWsDash cs = cs := by
  cases hcs : cs with
  | nil => rfl
  | cons c rest =>
    have hcal : isAlnum c = true := by
      rw [hcs] at hh
      simpa [headAl] using hh
    have h1 : (c :: rest).dropWhile isWsDash = c :: rest := by
      rw [List.dropWhile_cons, alnum_not_wsDash hcal]
      simp
    rcases getLast_of_endsAl (hcs ▸ he) (by simp) with ⟨z, hz, hzal⟩
    have h2 : (c :: rest).reverse.dropWhile isWsDash = (c :: rest).reverse := by
      cases hrev : (c :: rest).reverse with
      | nil => simpa using congrArg List.length hrev
      | cons y ys =>
        have hy : y = z := by
          have := List.head?_reverse (c :: rest)
          rw [hrev, hz] at this
          simpa using this
        rw [List.dropWhile_cons, hy, alnum_not_wsDash hzal]
        simp
    unfold trimWsDash
    rw [h1, h2, List.reverse_reverse]

theorem goodChar_ws_eq_sp {c : Char} (hg : goodChar c = true)
    (hw : jsWs c = true) : c = ' ' := by
  simp only [goodChar, Bool.or_eq_true, decide_eq_true_eq] at hg
  rcases hg with (hg | hg) | hg
  · exact absurd (ws_not_alnum hw) (by simp [hg])
  · exact hg
  · subst hg; simp [jsWs] at hw

theorem collapseWs_id : ∀ {cs : List Char}, allGood cs = true →
    hasPair wwP cs = false → collapseWs cs = cs := by
  intro cs
  induction cs using collapseWs.induct with
  | case1 => intro _ _; rw [collapseWs_nil]
  | case2 c rest hc ih =>
    intro hg hw
    rw [collapseWs_cons_ws rest hc]
    have hcg : goodChar c = true := by
      simp only [allGood, List.all_cons, Bool.and_eq_true] at hg
      exact hg.1
    have hcsp : c = ' ' := goodChar_ws_eq_sp hcg hc
    have hdrop : rest.dropWhile jsWs = rest := by
      cases rest with
      | nil => rfl
      | cons d rs =>
        have hdns : jsWs d = false := by
          by_contra hd
          have hd2 : jsWs d = true := by
            cases hjd : jsWs d
            · exact absurd hjd hd
            · rfl
          have : wwP c d = true := by simp [wwP, hc, hd2]
          have := hasPair_head (t := rs) hw
          simp_all
        rw [List.dropWhile_cons, hdns]
        simp
    rw [hdrop] at ih ⊢
    rw [ih (by simp_all [allGood]) (hasPair_tail hw), hcsp]
  | case3 c rest hc ih =>
    intro hg hw
    rw [collapseWs_cons_not rest hc]
    rw [ih (by simp_all [allGood]) (hasPair_tail hw)]

theorem hyRuns_id : ∀ {cs : List Char}, hasPair hhP cs = false →
    hyRuns cs = cs := by
  intro cs
  induction cs with
  | nil => intro _; rw [hyRuns_nil]
  | cons c rest ih =>
    intro h
    have hstep : hyRuns (c :: rest) = c :: hyRuns rest := by
      apply hyRuns_cons_eq
      intro rs hc hr
      subst hc
      rw [hr] at h
      have := hasPair_head h
      simp [hhP] at this
    rw [hstep, ih (hasPair_tail h)]

theorem haw_id : ∀ {cs : List Char}, hasTri b5P cs = false →
    hyAfterWord cs = cs := by
  intro cs
  induction cs using hyAfterWord.induct with
  | case1 a b rest hb ha ih =>
    intro h
    exfalso
    have := hasTri_head h
    simp [b5P, ha, hb] at this
  | case2 a b rest hcond ih =>
    intro h
    rw [haw_nomatch rest (fun hh => hcond hh.1 hh.2)]
    rw [ih (hasTri_tail h)]
  | case3 c rest hcc ih =>
    intro h
    rw [haw_cons rest hcc]
    rw [ih (hasTri_tail h)]
  | case4 => intro _; rw [haw_nil]

theorem hbw_id : ∀ {cs : List Char}, hasTri b6P cs = false →
    hyBeforeWord cs = cs := by
  intro cs
  induction cs using hyBeforeWord.induct with
  | case1 a b rest hb ha ih =>
    intro h
    exfalso
    have := hasTri_head h
    simp [b6P, ha, hb] at this
  | case2 a b rest hcond ih =>
    intro h
    rw [hbw_nomatch rest (fun hh => hcond hh.1 hh.2)]
    rw [ih (hasTri_tail h)]
  | case3 c rest hcc ih =>
    intro h
    rw [hbw_cons rest hcc]
    rw [ih (hasTri_tail h)]
  | case4 => intro _; rw [hbw_nil]

theorem jsWs_sp : jsWs ' ' = true := by decide

theorem sepMatch_none_of {cs : List Char} (h5 : has5 cs = false)
    (hw : hasPair wwP cs = false) : sepMatch cs = none := by
  cases hm : sepMatch cs with
  | none => rfl
  | some n =>
    exfalso
    obtain ⟨k, j, hk, hj, hn, hdec⟩ := sepMatch_decomp hm
    obtain ⟨k1, rfl⟩ : ∃ k1, k = k1 + 1 := ⟨k - 1, by omega⟩
    cases k1 with
    | zero =>
      obtain ⟨j1, rfl⟩ : ∃ j1, j = j1 + 1 := ⟨j - 1, by omega⟩
      rw [hdec] at h5
      simp [sepReps, dashReps, has5] at h5
    | succ k2 =>
      rw [hdec] at hw
      simp [sepReps, hasPair, wwP, jsWs_sp] at hw

theorem collapseSeps_id : ∀ {cs : List Char}, has5 cs = false →
    hasPair wwP cs = false → collapseSeps cs = cs := by
  intro cs
  induction cs using collapseSeps.induct with
  | case1 => intro _ _; rw [collapseSeps_nil]
  | case2 c rest n hm ih =>
    intro h5 hw
    exact absurd (sepMatch_none_of h5 hw ▸ hm) (by simp)
  | case3 c rest hm ih =>
    intro h5 hw
    rw [collapseSeps_nomatch hm, ih (has5_tail h5) (hasPair_tail hw)]

theorem restPipeline_id {cs : List Char} (hN : Normalized cs)
    (h5 : has5 cs = false) : restPipeline cs = cs := by
  obtain ⟨hG, hH, hE, hW, hHH, h5P, h6P⟩ := hN
  unfold restPipeline
  rw [replSpecial_id hG, trimWsDash_id hH hE, collapseWs_id hG hW,
    hyRuns_id hHH, haw_id h5P, hbw_id h6P, collapseSeps_id h5 hW,
    collapseWs_id hG hW]

theorem sanitizeTitle_id {s : String} (hN : Normalized s.data)
    (h5 : has5 s.data = false) : sanitizeTitle s = s := by
  unfold sanitizeTitle
  rw [stripFwd_id (colon_not_mem_of_allGood hN.1), restPipeline_id hN h5]

theorem sanitizeTitle_fix {s : String}
    (h5 : has5 (sanitizeTitle s).data = false) :
    sanitizeTitle (sanitizeTitle s) = sanitizeTitle s :=
  sanitizeTitle_id (sanitizeTitle_normalized s) h5

/-! ### Calendar facts for the resolver -/

theorem daysInMonth_pos (y m : Nat) : 1 ≤ daysInMonth y m := by
  unfold daysInMonth
  split <;> first | omega | (split <;> omega)

theorem daysBeforeMonth_succ (y m : Nat) :
    daysBeforeMonth y (m + 1) = daysBeforeMonth y m + daysInMonth y m := rfl

theorem dBM11 (y : Nat) : daysBeforeMonth y 11 + 31 = daysInYear y := by
  have h : daysBeforeMonth y 11 =
      31 + daysInMonth y 1 + 31 + 30 + 31 + 30 + 31 + 31 + 30 + 31 + 30 := rfl
  rw [h]
  unfold daysInMonth daysInYear
  cases hL : isLeap y <;> simp [hL]

theorem toSec_addDay {t : DT} (hm : t.month < 12)
    (hd : t.day ≤ daysInMonth t.year t.month) (hd1 : 1 ≤ t.day) :
    toSec (addDay t) = toSec t + 86400 := by
  unfold addDay
  split
  · rename_i h
    simp only [toSec, toDays]
    omega
  · split
    · rename_i h1 h2
      have hde : t.day = daysInMonth t.year t.month := by omega
      simp only [toSec, toDays, daysBeforeMonth_succ]
      omega
    · rename_i h1 h2
      have hm11 : t.month = 11 := by omega
      have hde : t.day = daysInMonth t.year t.month := by omega
      have hdy : daysBeforeYear (t.year + 1) =
          daysBeforeYear t.year + daysInYear t.year := daysBeforeYear_succ t.year
      have h31 : daysInMonth t.year 11 = 31 := rfl
      have h0 : daysBeforeMonth (t.year + 1) 0 = 0 := rfl
      have hb := dBM11 t.year
      rw [hm11, h31] at hde
      simp only [toSec, toDays, hdy, h0, hm11]
      omega

theorem toDays_addDay {t : DT} (hm : t.month < 12)
    (hd : t.day ≤ daysInMonth t.year t.month) (hd1 : 1 ≤ t.day) :
    toDays (addDay t) = toDays t + 1 := by
  have h := toSec_addDay hm hd hd1
  have he : ∀ u : DT, (addDay u).hour = u.hour ∧ (addDay u).minute = u.minute ∧
      (addDay u).second = u.second := by
    intro u
    unfold addDay
    split
    · exact ⟨rfl, rfl, rfl⟩
    · split <;> exact ⟨rfl, rfl, rfl⟩
  obtain ⟨h1, h2, h3⟩ := he t
  simp only [toSec, h1, h2, h3] at h
  omega

theorem addDay_time (t : DT) : (addDay t).hour = t.hour ∧
    (addDay t).minute = t.minute ∧ (addDay t).second = t.second := by
  unfold addDay
  split
  · exact ⟨rfl, rfl, rfl⟩
  · split <;> exact ⟨rfl, rfl, rfl⟩

theorem toSec_timeOnly_lt {now : DT} (hWF : WF now) (h mnt : Nat) :
    toSec now < toSec (⟨now.year, now.month, now.day, h, mnt, 0⟩ : DT) + 86400 := by
  obtain ⟨hM, hD1, hD2, hH, hMin, hS⟩ := hWF
  have he : toDays (⟨now.year, now.month, now.day, h, mnt, 0⟩ : DT) = toDays now := rfl
  simp only [toSec, he]
  omega

theorem resolveFmt_ge {now : DT} (hWF : WF now) (f : Fmt) (d : DT) :
    toSec now ≤ toSec (resolveFmt now f d) + 1800 := by
  obtain ⟨hM, hD1, hD2, hH, hMin, hS⟩ := hWF
  unfold resolveFmt
  by_cases hDD : fmtHasDD f = true
  · rw [if_pos hDD]
    simp only [setYearC, setMonthC]
    generalize clampDay now.year now.month (clampDay now.year d.month d.day) = bd
    generalize d.day = dd
    generalize d.hour = hh
    generalize d.minute = mm
    generalize d.second = ss
    simp only [setDateR]
    have hp1 := daysInMonth_pos now.year now.month
    have hp2 := daysInMonth_pos now.year (now.month + 1)
    have hp3 := daysInMonth_pos (now.year + 1) 0
    by_cases hc : dd ≤ daysInMonth now.year now.month
    · rw [if_pos hc]
      by_cases hlt : toSec (⟨now.year, now.month, dd, hh, mm, ss⟩ : DT) < toSec now
      · rw [if_pos hlt]
        rw [if_neg (by simp)]
        simp only [addMonthC]
        by_cases h11 : now.month = 11
        · rw [if_pos h11]
          have hb := dBM11 now.year
          have h31 : daysInMonth now.year 11 = 31 := rfl
          have hdy : daysBeforeYear (now.year + 1) =
              daysBeforeYear now.year + daysInYear now.year := daysBeforeYear_succ now.year
          have h0 : daysBeforeMonth (now.year + 1) 0 = 0 := rfl
          simp only [toSec, toDays, hdy, h0, h11] at *
          omega
        · rw [if_neg h11]
          have hsucc := daysBeforeMonth_succ now.year now.month
          simp only [toSec, toDays, hsucc] at *
          omega
      · rw [if_neg hlt]
        simp only [toSec, toDays] at *
        omega
    · rw [if_neg hc]
      by_cases h11 : now.month < 11
      · rw [if_pos h11]
        have hsucc := daysBeforeMonth_succ now.year now.month
        have hnlt : ¬ toSec (⟨now.year, now.month + 1, dd - daysInMonth now.year now.month,
            hh, mm, ss⟩ : DT) < toSec now := by
          simp only [toSec, toDays, hsucc]
          omega
        rw [if_neg hnlt]
        simp only [toSec, toDays, hsucc] at *
        omega
      · rw [if_neg h11]
        have h11e : now.month = 11 := by omega
        have hb := dBM11 now.year
        have h31 : daysInMonth now.year 11 = 31 := rfl
        have hdy : daysBeforeYear (now.year + 1) =
            daysBeforeYear now.year + daysInYear now.year := daysBeforeYear_succ now.year
        have h0 : daysBeforeMonth (now.year + 1) 0 = 0 := rfl
        have hnlt : ¬ toSec (⟨now.year + 1, 0, dd - daysInMonth now.year now.month,
            hh, mm, ss⟩ : DT) < toSec now := by
          simp only [toSec, toDays, hdy, h0, h11e] at *
          omega
        rw [if_neg hnlt]
        simp only [toSec, toDays, hdy, h0, h11e] at *
        omega
  · rw [if_neg hDD]
    by_cases hc : toSec (⟨now.year, now.month, now.day, d.hour, d.minute, 0⟩ : DT) + 1800 <
        toSec now
    · rw [if_pos hc]
      have ha : toSec (addDay (⟨now.year, now.month, now.day, d.hour, d.minute, 0⟩ : DT)) =
          toSec (⟨now.year, now.month, now.day, d.hour, d.minute, 0⟩ : DT) + 86400 :=
        toSec_addDay (by simpa using hM) (by simpa using hD2) (by simpa using hD1)
      rw [ha]
      have := toSec_timeOnly_lt ⟨hM, hD1, hD2, hH, hMin, hS⟩ d.hour d.minute
      omega
    · rw [if_neg hc]
      omega

theorem tryFmts_some {now today : DT} : ∀ {fs : List Fmt} {cs : List Char} {r : DT},
    tryFmts now today fs cs = some r →
    ∃ f, f ∈ fs ∧ ∃ d, matchFmt today f cs = some d ∧ r = resolveFmt now f d := by
  intro fs
  induction fs with
  | nil => intro cs r h; simp [tryFmts] at h
  | cons f rest ih =>
    intro cs r h
    simp only [tryFmts] at h
    cases hm : matchFmt today f cs with
    | some d =>
      rw [hm] at h
      refine ⟨f, by simp, d, hm, ?_⟩
      simpa using h.symm
    | none =>
      rw [hm] at h
      obtain ⟨g, hg, d, hd, hr⟩ := ih h
      exact ⟨g, by simp [hg], d, hd, hr⟩

theorem parse_some_decomp {dateStr : String} {now today : DT} {r : DT}
    (h : parseDateWithFormats dateStr now today = some r) :
    ∃ f, f ∈ fmtList ∧ ∃ d, matchFmt today f (preprocessL dateStr.data) = some d ∧
      r = resolveFmt now f d := by
  unfold parseDateWithFormats at h
  simp only [] at h
  split at h
  · exact absurd h (by simp)
  · exact tryFmts_some h

/-! ### The time-only and day-bearing format families -/

theorem matchFmt_dd_us {today : DT} {f : Fmt} {cs : List Char} {d : DT}
    (hf : fmtHasDD f = true) (h : matchFmt today f cs = some d) : '_' ∈ cs := by
  cases f <;> simp [fmtHasDD] at hf
  all_goals (unfold matchFmt at h; split at h)
  all_goals first | contradiction | simp | simp_all

theorem joinSep_mem {sep x : Char} : ∀ {ls : List (List Char)},
    x ∈ joinSep sep ls → x = sep ∨ ∃ l ∈ ls, x ∈ l := by
  intro ls
  induction ls with
  | nil => intro h; simp [joinSep] at h
  | cons a t ih =>
    intro h
    cases t with
    | nil =>
      simp only [joinSep] at h
      exact Or.inr ⟨a, by simp, h⟩
    | cons b t2 =>
      simp only [joinSep] at h
      rcases List.mem_append.1 h with h1 | h1
      · exact Or.inr ⟨a, by simp, h1⟩
      · rcases List.mem_cons.1 h1 with h2 | h2
        · exact Or.inl h2
        · rcases ih h2 with h3 | ⟨l, hl, hxl⟩
          · exact Or.inl h3
          · exact Or.inr ⟨l, by simp [hl], hxl⟩

theorem pad2_mem {x : Char} {l : List Char} (h : x ∈ pad2 l) :
    x = '0' ∨ x ∈ l := by
  unfold pad2 at h
  split at h
  · simp at h
    simp [h]
  · split at h
    · rcases List.mem_cons.1 h with h1 | h1
      · exact Or.inl h1
      · exact Or.inr h1
    · exact Or.inr h

theorem splitTime_mem : ∀ {cs : List Char} {l : List Char},
    l ∈ splitTime cs → ∀ x ∈ l, x ∈ cs := by
  intro cs
  induction cs with
  | nil =>
    intro l hl x hx
    simp [splitTime] at hl
    simp [hl] at hx
  | cons c rest ih =>
    intro l hl x hx
    simp only [splitTime] at hl
    split at hl
    · rcases List.mem_cons.1 hl with h1 | h1
      · simp [h1] at hx
      · exact List.mem_cons_of_mem c (ih h1 x hx)
    · rename_i hnc
      cases hsp : splitTime rest with
      | nil => rw [hsp] at hl; simp at hl; simp [hl] at hx; simp [hx]
      | cons hd tl =>
        rw [hsp] at hl
        rcases List.mem_cons.1 hl with h1 | h1
        · subst h1
          rcases List.mem_cons.1 hx with h2 | h2
          · simp [h2]
          · exact List.mem_cons_of_mem c (ih (by rw [hsp]; simp) x h2)
        · exact List.mem_cons_of_mem c (ih (by rw [hsp]; simp [h1]) x hx)

theorem preprocessL_no_us {cs : List Char} (h : '_' ∉ cs) :
    '_' ∉ preprocessL cs := by
  have hc : cs.contains '_' = false := by simpa using h
  unfold preprocessL
  simp only [hc, if_false, Bool.false_eq_true, ite_false]
  split
  · simp
  · intro hmem
    rcases joinSep_mem hmem with h1 | ⟨l, hl, hxl⟩
    · split at h1 <;> first | (split at h1 <;> simp_all) | simp_all
    · rcases List.mem_map.1 hl with ⟨l0, hl0, rfl⟩
      rcases pad2_mem hxl with h2 | h2
      · simp at h2
      · exact h (splitTime_mem hl0 _ h2)

theorem resolveFmt_timeonly {now : DT} {f : Fmt} (hdd : fmtHasDD f = false) (d : DT) :
    resolveFmt now f d =
      if toSec (⟨now.year, now.month, now.day, d.hour, d.minute, 0⟩ : DT) + 1800 <
          toSec now
      then addDay ⟨now.year, now.month, now.day, d.hour, d.minute, 0⟩
      else ⟨now.year, now.month, now.day, d.hour, d.minute, 0⟩ := by
  unfold resolveFmt
  rw [if_neg (by simp [hdd])]

/-- C1: for every token, reference instant `now` and wall-clock instant, a
timestamp returned by `parseDateWithFormats` is at least `now` minus 30
minutes; the resolver never silently returns a staler timestamp. -/
theorem c1_resolver_never_stale (dateStr : String) (now today : DT) (r : DT)
    (hWF : WF now) (h : parseDateWithFormats dateStr now today = some r) :
    toSec now ≤ toSec r + 1800 := by
  obtain ⟨f, _, d, _, hr⟩ := parse_some_decomp h
  rw [hr]
  exact resolveFmt_ge hWF f d

theorem c1_resolver_never_stale_witness :
    WF ⟨2024, 2, 27, 10, 0, 0⟩ ∧
    parseDateWithFormats "09:30" ⟨2024, 2, 27, 10, 0, 0⟩ ⟨2024, 2, 27, 10, 0, 0⟩ =
      some ⟨2024, 2, 27, 9, 30, 0⟩ ∧
    toSec ⟨2024, 2, 27, 10, 0, 0⟩ ≤ toSec ⟨2024, 2, 27, 9, 30, 0⟩ + 1800 :=
  ⟨by decide, by decide,
    c1_resolver_never_stale "09:30" ⟨2024, 2, 27, 10, 0, 0⟩ ⟨2024, 2, 27, 10, 0, 0⟩
      ⟨2024, 2, 27, 9, 30, 0⟩ (by decide) (by decide)⟩

/-- C2: the spec requires the resolved day-of-month of a day-bearing token
to equal the parsed day even when the disambiguation rolls into the next
month; the code instead clamps the day to the target month's length.  With
`now` = wall clock = 2024-01-31T12:00, the token `31_10-00` (day 31, a
valid day of January) is rolled forward by `.add(1, 'month')` and comes
back as February 29, not day 31. -/
theorem c2_day_clamped :
    parseDateWithFormats "31_10-00" ⟨2024, 0, 31, 12, 0, 0⟩ ⟨2024, 0, 31, 12, 0, 0⟩ =
      some ⟨2024, 1, 29, 10, 0, 0⟩ := by decide

/-- C3: a token without an underscore resolves through a time-only format:
the result carries `now`'s date when the requested wall time is at most 30
minutes before `now`, rolls to exactly the next calendar day when it is
more than 30 minutes stale, and never lands further than one day after
`now`. -/
theorem c3_timeonly_today_or_tomorrow (dateStr : String) (now today : DT)
    (r : DT) (hWF : WF now) (hu : '_' ∉ dateStr.data)
    (h : parseDateWithFormats dateStr now today = some r) :
    (toSec now ≤ toSec (⟨now.year, now.month, now.day, r.hour, r.minute, 0⟩ : DT) + 1800 →
        r = ⟨now.year, now.month, now.day, r.hour, r.minute, 0⟩) ∧
    (toSec (⟨now.year, now.month, now.day, r.hour, r.minute, 0⟩ : DT) + 1800 < toSec now →
        r = addDay ⟨now.year, now.month, now.day, r.hour, r.minute, 0⟩ ∧
          toDays r = toDays now + 1) ∧
    (toDays r = toDays now ∨ toDays r = toDays now + 1) := by
  obtain ⟨hM, hD1, hD2, hH, hMin, hS⟩ := hWF
  obtain ⟨f, _, d, hm, hr⟩ := parse_some_decomp h
  have hdd : fmtHasDD f = false := by
    cases hf : fmtHasDD f
    · rfl
    · exact absurd (matchFmt_dd_us hf hm) (preprocessL_no_us hu)
  rw [hr, resolveFmt_timeonly hdd]
  set c : DT := ⟨now.year, now.month, now.day, d.hour, d.minute, 0⟩ with hc
  by_cases hlt : toSec c + 1800 < toSec now
  · rw [if_pos hlt]
    obtain ⟨hh, hmn, hs⟩ := addDay_time c
    rw [hh, hmn]
    have hcfold : (⟨now.year, now.month, now.day, c.hour, c.minute, 0⟩ : DT) = c := rfl
    rw [hcfold]
    have htd : toDays (addDay c) = toDays c + 1 :=
      toDays_addDay (by simpa using hM) (by simpa using hD2) (by simpa using hD1)
    have htc : toDays c = toDays now := rfl
    exact ⟨fun hcon => absurd hcon (by omega),
      fun _ => ⟨rfl, by rw [htd, htc]⟩, Or.inr (by rw [htd, htc])⟩
  · rw [if_neg hlt]
    have hcfold : (⟨now.year, now.month, now.day, c.hour, c.minute, 0⟩ : DT) = c := rfl
    rw [hcfold]
    have htc : toDays c = toDays now := rfl
    exact ⟨fun _ => rfl, fun hcon => absurd hcon (by omega), Or.inl htc⟩

theorem c3_timeonly_today_or_tomorrow_witness :
    WF ⟨2024, 2, 27, 10, 0, 0⟩ ∧ '_' ∉ ("09:00" : String).data ∧
    parseDateWithFormats "09:00" ⟨2024, 2, 27, 10, 0, 0⟩ ⟨2024, 2, 27, 10, 0, 0⟩ =
      some ⟨2024, 2, 28, 9, 0, 0⟩ ∧
    toDays (⟨2024, 2, 28, 9, 0, 0⟩ : DT) = toDays ⟨2024, 2, 27, 10, 0, 0⟩ + 1 :=
  ⟨by decide, by decide, by decide,
    ((c3_timeonly_today_or_tomorrow "09:00" ⟨2024, 2, 27, 10, 0, 0⟩
        ⟨2024, 2, 27, 10, 0, 0⟩ ⟨2024, 2, 28, 9, 0, 0⟩ (by decide) (by decide)
        (by decide)).2.1 (by decide)).2⟩

/-! ### Malformed tokens -/

theorem isDig_ne {c : Char} (h : isDig c = true) :
    c ≠ '_' ∧ c ≠ ':' ∧ c ≠ '-' := by
  refine ⟨?_, ?_, ?_⟩ <;> intro he <;> rw [he] at h <;> exact absurd h (by decide)

theorem jsWs_not_dig {c : Char} (h : jsWs c = true) : isDig c = false := by
  cases hd : isDig c
  · rfl
  · exfalso
    simp only [jsWs, Bool.or_eq_true, Bool.and_eq_true, decide_eq_true_eq] at h
    simp only [isDig, Bool.and_eq_true, decide_eq_true_eq] at hd
    omega

theorem jsWs_ne {c : Char} (h : jsWs c = true) :
    c ≠ '_' ∧ c ≠ ':' ∧ c ≠ '-' ∧ c ≠ '0' := by
  refine ⟨?_, ?_, ?_, ?_⟩ <;> intro he <;> rw [he] at h <;> exact absurd h (by decide)

theorem splitTime_no_split : ∀ {cs : List Char},
    (∀ x ∈ cs, x ≠ '-' ∧ x ≠ ':') → splitTime cs = [cs] := by
  intro cs
  induction cs with
  | nil => intro _; rfl
  | cons c rest ih =>
    intro h
    have hc := h c (by simp)
    simp only [splitTime]
    rw [if_neg (by tauto)]
    rw [ih fun x hx => h x (by simp [hx])]

theorem matchFmt_colon_mem {today : DT} {cs : List Char} {d : DT}
    (h : matchFmt today .colonFmt cs = some d) : ':' ∈ cs := by
  unfold matchFmt at h
  split at h
  all_goals first | contradiction | simp | simp_all

theorem matchFmt_dash_mem {today : DT} {cs : List Char} {d : DT}
    (h : matchFmt today .dashFmt cs = some d) : '-' ∈ cs := by
  unfold matchFmt at h
  split at h
  all_goals first | contradiction | simp | simp_all

theorem matchFmt_hour_shape {today : DT} {cs : List Char} {d : DT}
    (h : matchFmt today .hourFmt cs = some d) :
    ∃ x y, cs = [x, y] ∧ isDig x = true ∧ isDig y = true := by
  rcases cs with _ | ⟨x, _ | ⟨y, _ | ⟨z, t⟩⟩⟩
  · simp [matchFmt] at h
  · simp [matchFmt] at h
  · refine ⟨x, y, rfl, ?_⟩
    unfold matchFmt at h
    split at h <;> first | contradiction | simp_all
  · simp [matchFmt] at h

theorem pad2_ne_nil (l : List Char) : pad2 l ≠ [] := by
  unfold pad2
  split
  · simp
  · split
    · simp
    · rename_i h1 h2
      intro he
      rw [he] at h1
      simp at h1

theorem parse_ws_none {s : String} (hws : s.data.all jsWs = true)
    (now today : DT) : parseDateWithFormats s now today = none := by
  cases hcs : s.data with
  | nil =>
    unfold parseDateWithFormats
    rw [hcs]
    rfl
  | cons c rest =>
    have hall : ∀ x ∈ s.data, jsWs x = true := List.all_eq_true.1 hws
    have hus : '_' ∉ s.data := fun hm => (jsWs_ne (hall _ hm)).1 rfl
    have hcol : ':' ∉ s.data := fun hm => (jsWs_ne (hall _ hm)).2.1 rfl
    have hdash : '-' ∉ s.data := fun hm => (jsWs_ne (hall _ hm)).2.2.1 rfl
    have hcont_us : s.data.contains '_' = false := by simpa using hus
    have hcont_col : s.data.contains ':' = false := by simpa using hcol
    have hcont_dash : s.data.contains '-' = false := by simpa using hdash
    have hsplit : splitTime s.data = [s.data] :=
      splitTime_no_split fun x hx =>
        ⟨(jsWs_ne (hall _ hx)).2.2.1, (jsWs_ne (hall _ hx)).2.1⟩
    have hp : preprocessL s.data = pad2 s.data := by
      unfold preprocessL
      simp only [hcont_us, Bool.false_eq_true, if_false, ite_false, hsplit]
      rw [if_neg (by rw [hcs]; simp)]
      simp only [hcont_col, hcont_dash, Bool.false_eq_true, if_false, ite_false]
      simp [joinSep]
    unfold parseDateWithFormats
    simp only [hp]
    rw [if_neg (pad2_ne_nil _)]
    cases htf : tryFmts now today fmtList (pad2 s.data) with
    | none => rfl
    | some r =>
      exfalso
      obtain ⟨f, _, d, hm, _⟩ := tryFmts_some htf
      have hmem : ∀ x ∈ pad2 s.data, x = '0' ∨ jsWs x = true := by
        intro x hx
        rcases pad2_mem hx with h1 | h1
        · exact Or.inl h1
        · exact Or.inr (hall _ h1)
      cases f with
      | dayDashFmt =>
        rcases hmem _ (matchFmt_dd_us (show fmtHasDD .dayDashFmt = true from rfl) hm)
          with h1 | h1
        · simp at h1
        · exact absurd rfl (jsWs_ne h1).1
      | dayColonFmt =>
        rcases hmem _ (matchFmt_dd_us (show fmtHasDD .dayColonFmt = true from rfl) hm)
          with h1 | h1
        · simp at h1
        · exact absurd rfl (jsWs_ne h1).1
      | dayHourFmt =>
        rcases hmem _ (matchFmt_dd_us (show fmtHasDD .dayHourFmt = true from rfl) hm)
          with h1 | h1
        · simp at h1
        · exact absurd rfl (jsWs_ne h1).1
      | colonFmt =>
        rcases hmem _ (matchFmt_colon_mem hm) with h1 | h1
        · simp at h1
        · exact absurd rfl (jsWs_ne h1).2.1
      | dashFmt =>
        rcases hmem _ (matchFmt_dash_mem hm) with h1 | h1
        · simp at h1
        · exact absurd rfl (jsWs_ne h1).2.2.1
      | hourFmt =>
        obtain ⟨x, y, hxy, hdx, hdy⟩ := matchFmt_hour_shape hm
        rw [hcs] at hxy
        cases hrest : rest with
        | nil =>
          rw [hrest] at hxy
          have hpc : pad2 [c] = ['0', c] := rfl
          rw [hpc] at hxy
          injection hxy with h1 h2
          injection h2 with h2 h3
          have := jsWs_not_dig (hall c (by rw [hcs, hrest]; simp))
          rw [← h2] at hdy
          rw [hdy] at this
          simp at this
        | cons r1 rest2 =>
          rw [hrest] at hxy
          have hpc : pad2 (c :: r1 :: rest2) = c :: r1 :: rest2 := rfl
          rw [hpc] at hxy
          injection hxy with h1 h2
          have := jsWs_not_dig (hall c (by rw [hcs, hrest]; simp))
          rw [← h1] at hdx
          rw [hdx] at this
          simp at this

theorem preprocess_colon_shape {x y u v : Char} (hx : isDig x = true)
    (hy : isDig y = true) (hu : isDig u = true) (hv : isDig v = true) :
    preprocessL [x, y, ':', u, v] = [x, y, ':', u, v] := by
  obtain ⟨hx1, hx2, hx3⟩ := isDig_ne hx
  obtain ⟨hy1, hy2, hy3⟩ := isDig_ne hy
  obtain ⟨hu1, hu2, hu3⟩ := isDig_ne hu
  obtain ⟨hv1, hv2, hv3⟩ := isDig_ne hv
  have hmem : '_' ∉ ([x, y, ':', u, v] : List Char) := by
    intro hm
    simp only [List.mem_cons, List.not_mem_nil, or_false] at hm
    rcases hm with h | h | h | h | h
    · exact hx1 h.symm
    · exact hy1 h.symm
    · exact absurd h (by decide)
    · exact hu1 h.symm
    · exact hv1 h.symm
  have hcont : ([x, y, ':', u, v] : List Char).contains '_' = false := by
    simpa using hmem
  have hcol : ([x, y, ':', u, v] : List Char).contains ':' = true := by
    have : ':' ∈ ([x, y, ':', u, v] : List Char) := by simp
    simpa using this
  have hst : splitTime [x, y, ':', u, v] = [[x, y], [u, v]] := by
    simp only [splitTime]
    rw [if_neg (by tauto), if_neg (by tauto), if_pos (by simp),
      if_neg (by tauto), if_neg (by tauto)]
  unfold preprocessL
  simp only [hcont, Bool.false_eq_true, if_false, ite_false]
  rw [if_neg (by simp)]
  simp only [hcol, if_true, ite_true, hst]
  simp [pad2, joinSep]

theorem parse_colon_out_of_range {x y u v : Char} (hx : isDig x = true)
    (hy : isDig y = true) (hu : isDig u = true) (hv : isDig v = true)
    (hbad : 23 < d2 x y ∨ 59 < d2 u v) (now today : DT) :
    parseDateWithFormats (String.mk [x, y, ':', u, v]) now today = none := by
  unfold parseDateWithFormats
  have hdata : (String.mk [x, y, ':', u, v]).data = [x, y, ':', u, v] := rfl
  rw [hdata, preprocess_colon_shape hx hy hu hv]
  rw [if_neg (by simp)]
  have h1 : matchFmt today .dayDashFmt [x, y, ':', u, v] = none := rfl
  have h2 : matchFmt today .dayColonFmt [x, y, ':', u, v] = none := rfl
  have h3 : matchFmt today .dayHourFmt [x, y, ':', u, v] = none := rfl
  have h5 : matchFmt today .dashFmt [x, y, ':', u, v] = none := rfl
  have h6 : matchFmt today .hourFmt [x, y, ':', u, v] = none := rfl
  have h4 : matchFmt today .colonFmt [x, y, ':', u, v] = none := by
    show (if isDig x && isDig y && isDig u && isDig v &&
        decide (d2 x y ≤ 23) && decide (d2 u v ≤ 59) then
        some (⟨today.year, today.month, today.day, d2 x y, d2 u v, 0⟩ : DT)
      else none) = none
    rw [hx, hy, hu, hv]
    rcases hbad with hb | hb
    · rw [decide_eq_false (by omega : ¬ d2 x y ≤ 23)]
      simp
    · rw [decide_eq_false (by omega : ¬ d2 u v ≤ 59)]
      simp
  simp only [fmtList, tryFmts, h1, h2, h3, h4, h5, h6]

/-- C7: the resolver returns `none` (never crashes) for empty or
whitespace-only tokens, a day component with no time part (`"27_"`), a bare
out-of-range hour (`"30"`), free text (`"incorrect format"`), non-numeric
fields (`"XX_YY-ZZ"`), and any `HH:mm`-shaped token whose hour exceeds 23
or whose minute exceeds 59. -/
theorem c7_malformed_tokens_fail :
    (∀ (s : String) (now today : DT), s.data.all jsWs = true →
      parseDateWithFormats s now today = none) ∧
    (∀ now today : DT, parseDateWithFormats "27_" now today = none) ∧
    (∀ now today : DT, parseDateWithFormats "30" now today = none) ∧
    (∀ now today : DT, parseDateWithFormats "incorrect format" now today = none) ∧
    (∀ now today : DT, parseDateWithFormats "XX_YY-ZZ" now today = none) ∧
    (∀ (x y u v : Char) (now today : DT), isDig x = true → isDig y = true →
      isDig u = true → isDig v = true → 23 < d2 x y ∨ 59 < d2 u v →
      parseDateWithFormats (String.mk [x, y, ':', u, v]) now today = none) :=
  ⟨fun s now today h => parse_ws_none h now today,
    fun _ _ => rfl, fun _ _ => rfl, fun _ _ => rfl, fun _ _ => rfl,
    fun x y u v now today hx hy hu hv hbad =>
      parse_colon_out_of_range hx hy hu hv hbad now today⟩

theorem c7_malformed_tokens_fail_witness :
    ((" \t" : String).data.all jsWs = true ∧
      parseDateWithFormats " \t" ⟨2024, 0, 1, 0, 0, 0⟩ ⟨2024, 0, 1, 0, 0, 0⟩ = none) ∧
    parseDateWithFormats (String.mk ['9', '9', ':', '9', '9'])
      ⟨2024, 0, 1, 0, 0, 0⟩ ⟨2024, 0, 1, 0, 0, 0⟩ = none :=
  ⟨⟨by decide, c7_malformed_tokens_fail.1 " \t" ⟨2024, 0, 1, 0, 0, 0⟩
      ⟨2024, 0, 1, 0, 0, 0⟩ (by decide)⟩,
    c7_malformed_tokens_fail.2.2.2.2.2 '9' '9' '9' '9' ⟨2024, 0, 1, 0, 0, 0⟩
      ⟨2024, 0, 1, 0, 0, 0⟩ (by decide) (by decide) (by decide) (by decide)
      (Or.inl (by decide))⟩

/-! ### The orchestrator: duplicate keys and the config-error latch -/

theorem getPageMeta_writePage_other {st : Store} {np p c : String}
    (h : np ≠ p) : getPageMeta (writePage st np c) p = getPageMeta st p := by
  show (List.find? (fun q => decide (q.1 = p)) ((np, c) :: st.pages)).map Prod.snd =
    (List.find? (fun q => decide (q.1 = p)) st.pages).map Prod.snd
  rw [List.find?_cons_of_neg _ (by simp [h])]

/-- C8: an invocation never overwrites an existing note: every page present
in the store before the command keeps its content, and the store either
stays unchanged or gains one page whose path did not previously exist. -/
theorem c8_no_overwrite (inv : Invocation) (shown : Bool) (st : Store)
    (p : String) (h : noteExists st p = true) :
    getPageMeta (meetingNote inv shown st).2.1 p = getPageMeta st p ∧
    ((meetingNote inv shown st).2.1 = st ∨
      ∃ q c, noteExists st q = false ∧
        (meetingNote inv shown st).2.1 = writePage st q c) := by
  constructor
  · simp only [meetingNote]
    repeat' split
    all_goals try rfl
    rename_i hne
    show getPageMeta (writePage st _ _) p = getPageMeta st p
    apply getPageMeta_writePage_other
    intro he
    rw [he] at hne
    exact hne h
  · simp only [meetingNote]
    repeat' split
    all_goals try exact Or.inl rfl
    rename_i hne
    refine Or.inr ⟨_, _, ?_, rfl⟩
    cases hx : noteExists st _
    · rfl
    · exact absurd hx hne

theorem c8_no_overwrite_witness :
    noteExists ⟨[("a", "x")]⟩ "a" = true ∧
    getPageMeta (meetingNote
        ⟨.valid ⟨some "t", some "b"⟩, some "T", some "10:20 standup",
          ⟨4, 2, 27, 10, 0, 0⟩⟩ false ⟨[("a", "x")]⟩).2.1 "a" =
      getPageMeta ⟨[("a", "x")]⟩ "a" :=
  ⟨by decide,
    (c8_no_overwrite ⟨.valid ⟨some "t", some "b"⟩, some "T", some "10:20 standup",
        ⟨4, 2, 27, 10, 0, 0⟩⟩ false ⟨[("a", "x")]⟩ "a" (by decide)).1⟩

/-- Number of schema-error notifications (the message of
`showConfigErrorNotification`) in an effect list. -/
def countZod : List Eff → Nat
  | [] => 0
  | .notify m k :: rest =>
    (if m = configErrorMsg ∧ k = "error" then 1 else 0) + countZod rest
  | _ :: rest => countZod rest

theorem countZod_append : ∀ (a b : List Eff),
    countZod (a ++ b) = countZod a + countZod b := by
  intro a b
  induction a with
  | nil => simp [countZod]
  | cons e rest ih =>
    cases e with
    | notify m k =>
      simp only [List.cons_append, countZod, List.append_eq, ih]
      omega
    | write p c =>
      simp only [List.cons_append, countZod, List.append_eq, ih]

theorem mn_structure (inv : Invocation) (shown : Bool) (st : Store) :
    (meetingNote inv shown st).1 = (getPlugConfig inv.raw shown).2.1 ∧
    ∃ tail, (meetingNote inv shown st).2.2 =
      (getPlugConfig inv.raw shown).2.2 ++ tail ∧ countZod tail = 0 := by
  constructor
  · simp only [meetingNote]
    repeat' split
    all_goals rfl
  · simp only [meetingNote]
    repeat' split
    all_goals
      first
      | exact ⟨_, rfl, by decide⟩
      | exact ⟨[], by simp, rfl⟩

theorem mn_zod_latch (inv : Invocation) (shown : Bool) (st : Store) :
    countZod (meetingNote inv shown st).2.2 + (if shown then 1 else 0) ≤
      (if (meetingNote inv shown st).1 then 1 else 0) := by
  obtain ⟨hflag, tail, heff, htail⟩ := mn_structure inv shown st
  rw [heff, countZod_append, htail, hflag]
  rcases hraw : inv.raw with _ | _ | c <;> cases shown <;>
    simp [getPlugConfig, showConfigErrorNotification, countZod, configErrorMsg]

theorem runSeq_zod : ∀ (invs : List Invocation) (shown : Bool) (st : Store),
    countZod (runSeq invs shown st).2.2 + (if shown then 1 else 0) ≤ 1 := by
  intro invs
  induction invs with
  | nil => intro shown st; cases shown <;> simp [runSeq, countZod]
  | cons inv rest ih =>
    intro shown st
    have h1 := mn_zod_latch inv shown st
    have h2 := ih (meetingNote inv shown st).1 (meetingNote inv shown st).2.1
    simp only [runSeq]
    rw [countZod_append]
    cases hm : (meetingNote inv shown st).1 <;>
      rw [hm] at h1 h2 <;>
      cases shown <;>
      simp at h1 h2 ⊢ <;>
      omega

/-- C9 (amended): the schema-validation error notification is shown at
most once per process lifetime: across any sequence of invocations started
with a cleared `configErrorShown` flag, at most one such notification is
emitted.  (The missing-settings notification, by contrast, repeats — see
the counterexample.) -/
theorem c9_invalid_config_notified_once (invs : List Invocation) (st : Store) :
    countZod (runSeq invs false st).2.2 ≤ 1 := by
  have h := runSeq_zod invs false st
  simpa using h

/-- C9 counterexample: with both settings missing, every invocation flashes
the missing-settings configuration error — two invocations in one process
produce two such notifications, so configuration errors are not reported
at most once per process lifetime. -/
theorem c9_missing_config_notified_twice :
    ((runSeq [⟨.valid ⟨none, none⟩, none, none, ⟨0, 0, 1, 0, 0, 0⟩⟩,
        ⟨.valid ⟨none, none⟩, none, none, ⟨0, 0, 1, 0, 0, 0⟩⟩] false ⟨[]⟩).2.2).count
      (Eff.notify "Please enter both a meetingNoteTemplatePath and meetingNoteBasePath."
        "error") = 2 := by decide

/-! ### Concrete sanitizer evaluations -/

set_option maxRecDepth 8000 in
theorem sanitize_eval_tag : sanitizeTitle "tag-meeting1" = "tag-meeting1" := by
  have h : ("tag-meeting1" : String) =
      String.mk ['t', 'a', 'g', '-', 'm', 'e', 'e', 't', 'i', 'n', 'g', '1'] := rfl
  rw [h]
  simp [sanitizeTitle, restPipeline, stripFwd, matchCI, afterColon, lowAscii,
    replSpecial, trimWsDash, isWsDash, jsWs, isAlnum, collapseWs, hyRuns,
    hyAfterWord, hyBeforeWord, collapseSeps, sepMatch, try7, repsSpDashSp,
    repsDashSp, List.dropWhile]

set_option maxRecDepth 8000 in
theorem sanitize_eval_sep2 : sanitizeTitle "a -- --b" = "a - - b" := by
  have h : ("a -- --b" : String) =
      String.mk ['a', ' ', '-', '-', ' ', '-', '-', 'b'] := rfl
  rw [h]
  simp [sanitizeTitle, restPipeline, stripFwd, matchCI, afterColon, lowAscii,
    replSpecial, trimWsDash, isWsDash, jsWs, isAlnum, collapseWs, hyRuns,
    hyAfterWord, hyBeforeWord, collapseSeps, sepMatch, try7, repsSpDashSp,
    repsDashSp, List.dropWhile]

set_option maxRecDepth 8000 in
theorem sanitize_eval_sep1 : sanitizeTitle "a - - b" = "a - b" := by
  have h : ("a - - b" : String) =
      String.mk ['a', ' ', '-', ' ', '-', ' ', 'b'] := rfl
  rw [h]
  simp [sanitizeTitle, restPipeline, stripFwd, matchCI, afterColon, lowAscii,
    replSpecial, trimWsDash, isWsDash, jsWs, isAlnum, collapseWs, hyRuns,
    hyAfterWord, hyBeforeWord, collapseSeps, sepMatch, try7, repsSpDashSp,
    repsDashSp, List.dropWhile]

set_option maxRecDepth 8000 in
theorem sanitize_eval_fw : sanitizeTitle "Fw: Meeting with team" = "Meeting with team" := by
  have h : ("Fw: Meeting with team" : String) =
      String.mk ['F', 'w', ':', ' ', 'M', 'e', 'e', 't', 'i', 'n', 'g', ' ',
        'w', 'i', 't', 'h', ' ', 't', 'e', 'a', 'm'] := rfl
  rw [h]
  simp [sanitizeTitle, restPipeline, stripFwd, matchCI, afterColon, lowAscii,
    replSpecial, trimWsDash, isWsDash, jsWs, isAlnum, collapseWs, hyRuns,
    hyAfterWord, hyBeforeWord, collapseSeps, sepMatch, try7, repsSpDashSp,
    repsDashSp, List.dropWhile]

set_option maxRecDepth 8000 in
theorem sanitize_eval_fwfw : sanitizeTitle "Fw: Fw: Standup" = "Fw - Standup" := by
  have h : ("Fw: Fw: Standup" : String) =
      String.mk ['F', 'w', ':', ' ', 'F', 'w', ':', ' ', 'S', 't', 'a', 'n',
        'd', 'u', 'p'] := rfl
  rw [h]
  simp [sanitizeTitle, restPipeline, stripFwd, matchCI, afterColon, lowAscii,
    replSpecial, trimWsDash, isWsDash, jsWs, isAlnum, collapseWs, hyRuns,
    hyAfterWord, hyBeforeWord, collapseSeps, sepMatch, try7, repsSpDashSp,
    repsDashSp, List.dropWhile]

/-- C4 (amended): every sanitizer output is drawn from `[A-Za-z0-9 -]`,
begins and ends with an alphanumeric character, and contains no doubled
space and no doubled hyphen; every hyphen lies either between two
alphanumeric characters (a preserved compound word) or between two
non-alphanumeric characters, i.e. between single spaces.  (The original
claim's "hyphens always surrounded by single spaces" and "no repeated
separators" parts fail — see the counterexample.) -/
theorem c4_sanitize_output_shape (s : String) :
    Normalized (sanitizeTitle s).data :=
  sanitizeTitle_normalized s

theorem c4_sanitize_output_shape_counterexample :
    sanitizeTitle "tag-meeting1" = "tag-meeting1" ∧
    ('-' ∈ ("tag-meeting1" : String).data ∧
      (' ' :: '-' :: ' ' :: List.nil) ≠ ("tag-meeting1" : String).data) ∧
    sanitizeTitle "a -- --b" = "a - - b" ∧
    has5 ("a - - b" : String).data = true :=
  ⟨sanitize_eval_tag, by decide, sanitize_eval_sep2, by decide⟩

/-- C5 (amended): the sanitizer is idempotent on every input whose output
does not contain the repeated-separator pattern `" - - "`; re-running it on
such an output returns the output unchanged.  (Full idempotence fails —
see the counterexample.) -/
theorem c5_sanitize_idempotent_unless_sep_pair (s : String)
    (h5 : has5 (sanitizeTitle s).data = false) :
    sanitizeTitle (sanitizeTitle s) = sanitizeTitle s :=
  sanitizeTitle_fix h5

theorem c5_sanitize_idempotent_unless_sep_pair_witness :
    has5 (sanitizeTitle "tag-meeting1").data = false ∧
    sanitizeTitle (sanitizeTitle "tag-meeting1") = sanitizeTitle "tag-meeting1" :=
  ⟨by rw [sanitize_eval_tag]; decide,
    c5_sanitize_idempotent_unless_sep_pair "tag-meeting1"
      (by rw [sanitize_eval_tag]; decide)⟩

theorem c5_sanitize_idempotent_unless_sep_pair_counterexample :
    sanitizeTitle (sanitizeTitle "a -- --b") ≠ sanitizeTitle "a -- --b" := by
  rw [sanitize_eval_sep2, sanitize_eval_sep1]
  decide

/-- C6: the sanitizer strips one leading case-insensitive `fw:` / `fwd:` /
`re:` prefix (with optional surrounding whitespace) before every other
rewrite step; `"Fw: Meeting with team"` comes back as
`"Meeting with team"`, and only the first of two stacked prefixes is
removed. -/
theorem c6_forward_prefix_stripped_once :
    sanitizeTitle "Fw: Meeting with team" = "Meeting with team" ∧
    (∀ s : String, sanitizeTitle s = String.mk (restPipeline (stripFwd s.data))) ∧
    stripFwd ("Fw: Fw: Standup" : String).data = ("Fw: Standup" : String).data ∧
    stripFwd ("  rE:  Standup" : String).data = ("Standup" : String).data ∧
    sanitizeTitle "Fw: Fw: Standup" = "Fw - Standup" :=
  ⟨sanitize_eval_fw, fun _ => rfl, by decide, by decide, sanitize_eval_fwfw⟩

